import Mathlib

/-!
Verification of the vienna agent-orchestration system.

This file shallowly embeds the parts of the repository that the verified
properties are about: the execution engine (dependency graph construction,
Kahn topological sort, sequential execution with dependency-failure
short-circuiting, data extraction and template filling), the credential
store, the agent registry parameter validation, the base agent error
classification, the gmail agent email validation, and the intent parser
plan validation.

Python dictionaries are embedded as association lists (first binding wins
on lookup; updates prepend), Python values as the inductive PyVal, and
functions that raise exceptions return Except or Option.
-/

namespace Vienna

/-- First-match association-list lookup, the embedding of Python dict access. -/
def alookup {α : Type} (m : List (String × α)) (k : String) : Option α :=
  match m with
  | [] => none
  | (k₁, v) :: rest => if k₁ = k then some v else alookup rest k

/-- Python str.join over a list of strings with the given separator. -/
def joinSep (sep : String) : List String → String
  | [] => ""
  | [x] => x
  | x :: xs => x ++ sep ++ joinSep sep xs

/-- Position of the first occurrence of an element in a list (length if absent). -/
def pos (l : List String) (a : String) : Nat :=
  match l with
  | [] => 0
  | x :: xs => if x = a then 0 else pos xs a + 1

/-- Decides whether the first list occurs as a leading segment of the second. -/
def leadSeg : List Char → List Char → Bool
  | [], _ => true
  | _ :: _, [] => false
  | p :: ps, c :: cs => p = c && leadSeg ps cs

/-- Decides whether the first list occurs as a contiguous segment of the second,
the embedding of the Python `in` operator on strings. -/
def hasSeg (pat : List Char) : List Char → Bool
  | [] => pat.isEmpty
  | c :: cs => leadSeg pat (c :: cs) || hasSeg pat cs

/-- Substring test on strings (Python `sub in s`). -/
def strContains (s sub : String) : Bool :=
  hasSeg sub.data s.data

/-- ASCII lowercasing of a string, the embedding of Python str.lower. -/
def strLower (s : String) : String :=
  ⟨s.data.map Char.toLower⟩

/-- Python-style values stored in task results and parameters. -/
inductive PyVal where
  | vstr : String → PyVal
  | vint : Int → PyVal
  | vbool : Bool → PyVal
  | vnone : PyVal
  | vlist : List PyVal → PyVal
  | vdict : List (String × PyVal) → PyVal

mutual

/-- Python repr of a value (used by str() on containers). -/
def pyRepr : PyVal → String
  | .vstr s => "\x27" ++ s ++ "\x27"
  | .vint n => toString n
  | .vbool b => if b then "True" else "False"
  | .vnone => "None"
  | .vlist l => "[" ++ pyReprList l ++ "]"
  | .vdict m => "\x7b" ++ pyReprDict m ++ "\x7d"

/-- Comma-joined reprs of list elements. -/
def pyReprList : List PyVal → String
  | [] => ""
  | [x] => pyRepr x
  | x :: xs => pyRepr x ++ ", " ++ pyReprList xs

/-- Comma-joined key: value reprs of dict entries. -/
def pyReprDict : List (String × PyVal) → String
  | [] => ""
  | [(k, v)] => pyRepr (.vstr k) ++ ": " ++ pyRepr v
  | (k, v) :: xs => pyRepr (.vstr k) ++ ": " ++ pyRepr v ++ ", " ++ pyReprDict xs

end

/-- Python str() of a value: identity on strings, repr on containers. -/
def pyStr : PyVal → String
  | .vstr s => s
  | v => pyRepr v

/-- Python truthiness of a value. -/
def pyTruthy : PyVal → Bool
  | .vstr s => !s.isEmpty
  | .vint n => n ≠ 0
  | .vbool b => b
  | .vnone => false
  | .vlist l => !l.isEmpty
  | .vdict m => !m.isEmpty

/-- Python dict .get(k): none when the receiver is not a dict or lacks the key. -/
def pyGet (v : PyVal) (k : String) : Option PyVal :=
  match v with
  | .vdict m => alookup m k
  | _ => none

/-! ## Credential store (src/auth/credential_store.py)

The Fernet authenticated-encryption primitive is an external library; the
store is parameterised by its encrypt/decrypt pair. `decF` returns none when
decryption or authentication fails (the library raises there). Tokens are
byte strings, embedded as lists of characters. -/

/-- Error kinds raised by the embedded components, following the error
taxonomy of the system (InvalidInput for empty tokens, DecryptionFailed for
an undecryptable ciphertext). -/
inductive VErr where
  | invalidInput : String → VErr
  | decryptionFailed : String → VErr
deriving DecidableEq

/-- A credential store: the configured salt plus the cipher primitive. -/
structure CredStore where
  salt : List Char
  encF : List Char → List Char
  decF : List Char → Option (List Char)

/-- CredentialStore.encrypt_token: reject the empty token, then encrypt the
salt-prefixed token bytes. -/
def encryptToken (st : CredStore) (token : List Char) : Except VErr (List Char) :=
  if token = [] then .error (.invalidInput "Token cannot be empty")
  else .ok (st.encF (st.salt ++ token))

/-- CredentialStore.decrypt_token: reject the empty ciphertext, decrypt, then
strip the salt prefix by length. -/
def decryptToken (st : CredStore) (ct : List Char) : Except VErr (List Char) :=
  if ct = [] then .error (.invalidInput "Encrypted token cannot be empty")
  else
    match st.decF ct with
    | none => .error (.decryptionFailed "Failed to decrypt token")
    | some plain => .ok (plain.drop st.salt.length)

/-- C3: for every cipher satisfying the authenticated-encryption round-trip
contract and producing non-empty ciphertexts, decrypt_token inverts
encrypt_token on every non-empty token; the empty token and the empty
ciphertext are rejected with InvalidInput errors. -/
theorem credential_roundtrip (st : CredStore) (token : List Char)
    (hrt : ∀ x, st.decF (st.encF x) = some x)
    (hne : st.encF (st.salt ++ token) ≠ [])
    (ht : token ≠ []) :
    (∃ ct, encryptToken st token = .ok ct ∧ decryptToken st ct = .ok token) ∧
    encryptToken st [] = .error (.invalidInput "Token cannot be empty") ∧
    decryptToken st [] = .error (.invalidInput "Encrypted token cannot be empty") := by
  refine ⟨⟨st.encF (st.salt ++ token), ?_, ?_⟩, rfl, rfl⟩
  · simp [encryptToken, ht]
  · simp [decryptToken, hne, hrt, List.drop_left]

/-- Witness for C3 at a concrete cipher (append a marker byte; decryption
drops it) with salt "s" and token "ab". -/
theorem credential_roundtrip_witness :
    ((∀ x, (some (x ++ ['!']) >>= fun y => some (y.dropLast)) = some x) ∧
      ("s".data ++ "ab".data) ++ ['!'] ≠ [] ∧ "ab".data ≠ []) ∧
    (∃ ct, encryptToken ⟨"s".data, fun x => x ++ ['!'],
        fun y => some y.dropLast⟩ "ab".data = .ok ct ∧
      decryptToken ⟨"s".data, fun x => x ++ ['!'],
        fun y => some y.dropLast⟩ ct = .ok "ab".data) := by
  refine ⟨⟨fun x => by simp, by decide, by decide⟩, ?_⟩
  exact (credential_roundtrip ⟨"s".data, fun x => x ++ ['!'], fun y => some y.dropLast⟩
    "ab".data (fun x => by simp) (by decide) (by decide)).1

/-! ## Base agent error classification (src/agents/base_agent.py) -/

/-- Exception class names treated as retryable by BaseAgent._is_retryable_error. -/
def retryableTypes : List String :=
  ["ConnectionError", "TimeoutError", "HTTPError", "RateLimitError", "ServerError"]

/-- Message substrings treated as retryable indicators. -/
def retryableKeywords : List String :=
  ["timeout", "rate limit", "temporarily", "try again"]

/-- BaseAgent._is_retryable_error over an exception's class name and message. -/
def isRetryableError (errType errMsg : String) : Bool :=
  decide (errType ∈ retryableTypes) ||
    retryableKeywords.any (fun k => strContains (strLower errMsg) k)

/-- BaseAgent.handle_error: the standardized error envelope. The wall-clock
timestamp of the metadata is not modelled. -/
def handleError (agentType userId : String) (errType errMsg : String)
    (executionTime apiCalls : Int) : PyVal :=
  .vdict [("status", .vstr "error"), ("data", .vnone),
    ("metadata", .vdict [("execution_time", .vint executionTime),
      ("api_calls", .vint apiCalls), ("agent_type", .vstr agentType),
      ("user_id", .vstr userId), ("retryable", .vbool (isRetryableError errType errMsg))]),
    ("error", .vdict [("type", .vstr errType), ("message", .vstr errMsg)])]

/-- Case-insensitive substring containment: the needle occurs in the haystack
after lowering both. -/
def ContainsCI (hay needle : String) : Prop :=
  ∃ pre post, hay.data.map Char.toLower = pre ++ needle.data.map Char.toLower ++ post

theorem leadSeg_iff (p s : List Char) :
    leadSeg p s = true ↔ ∃ rest, s = p ++ rest := by
  induction p generalizing s with
  | nil => simp [leadSeg]
  | cons c cs ih =>
    cases s with
    | nil => simp [leadSeg]
    | cons d ds =>
      simp only [leadSeg, Bool.and_eq_true, decide_eq_true_eq, ih, List.cons_append]
      constructor
      · rintro ⟨rfl, rest, rfl⟩
        exact ⟨rest, rfl⟩
      · rintro ⟨rest, h⟩
        cases h
        exact ⟨rfl, rest, rfl⟩

theorem hasSeg_iff (p s : List Char) :
    hasSeg p s = true ↔ ∃ pre post, s = pre ++ p ++ post := by
  induction s with
  | nil =>
    simp only [hasSeg, List.isEmpty_iff]
    constructor
    · rintro rfl
      exact ⟨[], [], rfl⟩
    · rintro ⟨pre, post, h⟩
      have hl := congrArg List.length h
      simp only [List.length_nil, List.length_append] at hl
      exact List.length_eq_zero.1 (by omega)
  | cons c cs ih =>
    simp only [hasSeg, Bool.or_eq_true, leadSeg_iff, ih]
    constructor
    · rintro (⟨rest, h⟩ | ⟨pre, post, h⟩)
      · exact ⟨[], rest, by simpa using h⟩
      · exact ⟨c :: pre, post, by simp [h]⟩
    · rintro ⟨pre, post, h⟩
      cases pre with
      | nil => exact Or.inl ⟨post, by simpa using h⟩
      | cons x xs =>
        simp only [List.cons_append] at h
        cases h
        exact Or.inr ⟨xs, post, rfl⟩

theorem strContains_iff (s sub : String) :
    strContains s sub = true ↔ ∃ pre post, s.data = pre ++ sub.data ++ post := by
  simpa [strContains] using hasSeg_iff sub.data s.data

/-- C8: in every error envelope the retryable flag is true exactly when the
exception class name is one of the retryable types, or the message contains
one of the retryable keywords case-insensitively. -/
theorem retryable_classification (agentType userId errType errMsg : String)
    (executionTime apiCalls : Int) :
    ∃ b : Bool,
      (pyGet (handleError agentType userId errType errMsg executionTime apiCalls)
          "metadata").bind (fun m => pyGet m "retryable") = some (.vbool b) ∧
      (b = true ↔ errType ∈ retryableTypes ∨
        ∃ k ∈ retryableKeywords, ContainsCI errMsg k) := by
  refine ⟨isRetryableError errType errMsg, by rfl, ?_⟩
  have hlow : ∀ k ∈ retryableKeywords, k.data.map Char.toLower = k.data := by decide
  simp only [isRetryableError, Bool.or_eq_true, decide_eq_true_eq, List.any_eq_true]
  constructor
  · rintro (h | ⟨k, hk, hc⟩)
    · exact Or.inl h
    · refine Or.inr ⟨k, hk, ?_⟩
      rcases (strContains_iff _ _).1 hc with ⟨pre, post, h⟩
      exact ⟨pre, post, by rw [hlow k hk]; simpa [strLower] using h⟩
  · rintro (h | ⟨k, hk, pre, post, h⟩)
    · exact Or.inl h
    · refine Or.inr ⟨k, hk, (strContains_iff _ _).2 ⟨pre, post, ?_⟩⟩
      rw [hlow k hk] at h
      simpa [strLower] using h

/-! ## Agent capability registry (src/config/agent_registry.py) -/

/-- Modelled from the spec: the agent registry YAML document at
src/config/agent_registry.yaml is not among the sources; its entries
(gmail with modes read/send/search, github with modes list_repos/get_repo,
and their parameter descriptor strings of the form "name (required)" or
"name (optional, default: value)") are modelled from the specification. -/
def registryAgents : List (String × List (String × List String)) :=
  [("gmail",
     [("read", ["query (optional, default: )", "max_results (optional, default: 10)",
                "date_filter (optional)"]),
      ("send", ["to (required)", "subject (required)", "body (required)", "cc (optional)"]),
      ("search", ["query (required)", "max_results (optional, default: 10)"])]),
   ("github",
     [("list_repos", ["sort_by (optional, default: updated)", "limit (optional, default: 10)",
                      "visibility (optional, default: all)"]),
      ("get_repo", ["repo_name (required)"])])]

/-- AgentRegistry.get_agent_config, reduced to the mode table. The error
messages elide the "available" listing of the original. -/
def getAgentConfig (agentType : String) : Except String (List (String × List String)) :=
  match alookup registryAgents agentType with
  | none => .error ("Agent type \x27" ++ agentType ++ "\x27 not found")
  | some modes => .ok modes

/-- AgentRegistry.get_agent_modes. -/
def getAgentModes (agentType : String) : Except String (List String) :=
  (getAgentConfig agentType).map (fun modes => modes.map Prod.fst)

/-- AgentRegistry.get_mode_parameters, reduced to the parameter descriptors. -/
def getModeParameters (agentType mode : String) : Except String (List String) :=
  match getAgentConfig agentType with
  | .error e => .error e
  | .ok modes =>
    match alookup modes mode with
    | none => .error ("Mode \x27" ++ mode ++ "\x27 not found for agent \x27" ++
        agentType ++ "\x27")
    | some ps => .ok ps

/-- Whitespace-stripping of both ends (Python str.strip). -/
def strStrip (s : String) : String :=
  ⟨((s.data.dropWhile (·.isWhitespace)).reverse.dropWhile (·.isWhitespace)).reverse⟩

/-- Name part of a parameter descriptor: text before the first parenthesis,
stripped (Python param.split(\x27(\x27)[0].strip()). -/
def paramNameOf (p : String) : String :=
  strStrip ⟨p.data.takeWhile (fun c => c ≠ '(')⟩

/-- AgentRegistry.get_required_parameters: descriptors containing
"(required)" case-insensitively, reduced to their names. -/
def getRequiredParameters (agentType mode : String) : Except String (List String) :=
  (getModeParameters agentType mode).map (fun ps =>
    (ps.filter (fun p => strContains (strLower p) "(required)")).map paramNameOf)

/-- AgentRegistry.validate_mode_parameters over the supplied parameter keys. -/
def validateModeParameters (agentType mode : String) (supplied : List String) :
    Bool × Option String :=
  match getRequiredParameters agentType mode with
  | .error e => (false, some e)
  | .ok required =>
    let missing := required.filter (fun p => decide (¬ p ∈ supplied))
    if missing.isEmpty then (true, none)
    else (false, some ("Missing required parameters: " ++ joinSep ", " missing))

theorem validate_gmail_send_eq (supplied : List String) :
    validateModeParameters "gmail" "send" supplied =
      (if (["to", "subject", "body"].filter (fun p => decide (¬ p ∈ supplied))).isEmpty
        then (true, none)
        else (false, some ("Missing required parameters: " ++ joinSep ", "
          (["to", "subject", "body"].filter (fun p => decide (¬ p ∈ supplied)))))) := rfl

theorem validate_github_getrepo_eq (supplied : List String) :
    validateModeParameters "github" "get_repo" supplied =
      (if (["repo_name"].filter (fun p => decide (¬ p ∈ supplied))).isEmpty
        then (true, none)
        else (false, some ("Missing required parameters: " ++ joinSep ", "
          (["repo_name"].filter (fun p => decide (¬ p ∈ supplied)))))) := rfl

/-- C6: against the registry entries for gmail.send (required to, subject,
body) and github.get_repo (required repo_name), validation returns
(true, none) exactly when no required name is missing from the supplied
keys, and otherwise (false, message) naming exactly the missing names,
regardless of extra or optional keys. -/
theorem registry_validation (supplied : List String) :
    getRequiredParameters "gmail" "send" = .ok ["to", "subject", "body"] ∧
    getRequiredParameters "github" "get_repo" = .ok ["repo_name"] ∧
    validateModeParameters "gmail" "send" supplied =
      (if (["to", "subject", "body"].filter (fun p => decide (¬ p ∈ supplied))).isEmpty
        then (true, none)
        else (false, some ("Missing required parameters: " ++ joinSep ", "
          (["to", "subject", "body"].filter (fun p => decide (¬ p ∈ supplied)))))) ∧
    validateModeParameters "github" "get_repo" supplied =
      (if (["repo_name"].filter (fun p => decide (¬ p ∈ supplied))).isEmpty
        then (true, none)
        else (false, some ("Missing required parameters: " ++ joinSep ", "
          (["repo_name"].filter (fun p => decide (¬ p ∈ supplied)))))) :=
  ⟨rfl, rfl, validate_gmail_send_eq supplied, validate_github_getrepo_eq supplied⟩

/-! ## Gmail agent email validation (src/agents/gmail_agent.py) -/

/-- Character class of the local part of the email regex. -/
def localChar (c : Char) : Bool :=
  c.isAlpha || c.isDigit || c = '.' || c = '_' || c = '%' || c = '+' || c = '-'

/-- Character class of the domain part of the email regex. -/
def domainChar (c : Char) : Bool :=
  c.isAlpha || c.isDigit || c = '.' || c = '-'

/-- All ways of splitting a list into a leading and trailing segment. -/
def splitsList {α : Type} : List α → List (List α × List α)
  | [] => [([], [])]
  | x :: xs => ([], x :: xs) :: (splitsList xs).map (fun p => (x :: p.1, p.2))

/-- Match of the regex tail [a-zA-Z0-9.-]+\.[a-zA-Z]{2,} against a character list. -/
def domainTailMatch (rest : List Char) : Bool :=
  (splitsList rest).any (fun q =>
    match q.2 with
    | '.' :: t => !q.1.isEmpty && q.1.all domainChar &&
        decide (2 ≤ t.length) && t.all Char.isAlpha
    | _ => false)

/-- Match of the full email regex body against a character list. -/
def emailCore (cs : List Char) : Bool :=
  (splitsList cs).any (fun p =>
    match p.2 with
    | '@' :: rest => !p.1.isEmpty && p.1.all localChar && domainTailMatch rest
    | _ => false)

/-- GmailAgent._is_valid_email: empty strings are rejected, then the anchored
regex is applied (the dollar anchor also matches before one trailing newline,
as in Python). -/
def isValidEmail (s : String) : Bool :=
  if s.isEmpty then false
  else
    emailCore s.data ||
      (match s.data.getLast? with
        | some c => c = '\n' && emailCore s.data.dropLast
        | none => false)

/-- GmailAgent.validate_parameters restricted to string-valued parameters,
the only case the send contract exercises: registry validation first, then
the to/cc address checks for the send mode. An empty cc value is skipped by
the code (Python truthiness). -/
def gmailValidateParameters (mode : String) (params : List (String × String)) :
    Except String Bool :=
  match validateModeParameters "gmail" mode (params.map Prod.fst) with
  | (false, e) => .error (e.getD "None")
  | (true, _) =>
    if mode = "send" then
      match alookup params "to" with
      | none => .error "Invalid \x27to\x27 email address: None"
      | some toAddr =>
        if !isValidEmail toAddr then
          .error ("Invalid \x27to\x27 email address: " ++ toAddr)
        else
          match alookup params "cc" with
          | some cc =>
            if cc ≠ "" && !isValidEmail cc then
              .error ("Invalid \x27cc\x27 email address: " ++ cc)
            else .ok true
          | none => .ok true
    else .ok true

/-- BaseAgent.execute_task reduced to the validation/execution sequencing: a
validation failure produces the error envelope and the mode handler is never
invoked (second component false). -/
def agentRunTask (agentType userId : String) (validated : Except String Bool)
    (execF : Unit → PyVal) : PyVal × Bool :=
  match validated with
  | .error e => (handleError agentType userId "ValueError" e 0 0, false)
  | .ok _ => (execF (), true)

theorem alookup_eq_none {α : Type} (m : List (String × α)) (k : String) :
    alookup m k = none ↔ ¬ k ∈ m.map Prod.fst := by
  induction m with
  | nil => simp [alookup]
  | cons kv rest ih =>
    obtain ⟨k₁, v⟩ := kv
    by_cases h : k₁ = k
    · subst h
      simp [alookup]
    · simp [alookup, h, ih, Ne.symm h]

/-- Counterexample for C9 as stated: with cc supplied as the empty string —
a present cc value that the address validator rejects — send validation
nevertheless succeeds, because the code skips the cc check for falsy values. -/
theorem email_cc_empty_counterexample :
    gmailValidateParameters "send"
      [("to", "john@example.com"), ("subject", "s"), ("body", "b"), ("cc", "")] = .ok true ∧
    alookup [("to", "john@example.com"), ("subject", "s"), ("body", "b"), ("cc", "")]
      "cc" = some "" ∧
    isValidEmail "" = false := ⟨rfl, rfl, rfl⟩

/-- C9 (amended): the address validator accepts john@example.com and rejects
not-an-email and the empty string; for send mode, a missing to parameter, an
invalid to address, or an invalid non-empty cc address each fail validation
with an InvalidInput error, before the mode handler runs. -/
theorem email_validation (params : List (String × String)) (userId : String)
    (execF : Unit → PyVal) :
    (isValidEmail "john@example.com" = true ∧ isValidEmail "not-an-email" = false ∧
      isValidEmail "" = false) ∧
    (alookup params "to" = none → ∃ e, gmailValidateParameters "send" params = .error e) ∧
    (∀ toAddr, alookup params "to" = some toAddr → isValidEmail toAddr = false →
      ∃ e, gmailValidateParameters "send" params = .error e) ∧
    (∀ cc, alookup params "cc" = some cc → cc ≠ "" → isValidEmail cc = false →
      ∃ e, gmailValidateParameters "send" params = .error e) ∧
    (∀ e, gmailValidateParameters "send" params = .error e →
      agentRunTask "gmail" userId (gmailValidateParameters "send" params) execF =
        (handleError "gmail" userId "ValueError" e 0 0, false)) := by
  refine ⟨⟨rfl, rfl, rfl⟩, ?_, ?_, ?_, ?_⟩
  · intro hto
    have hmem : ¬ "to" ∈ params.map Prod.fst := (alookup_eq_none params "to").1 hto
    have hmm : "to" ∈ ["to", "subject", "body"].filter
        (fun p => decide (¬ p ∈ params.map Prod.fst)) :=
      List.mem_filter.2 ⟨by simp, by simpa using hmem⟩
    have hne : (["to", "subject", "body"].filter
        (fun p => decide (¬ p ∈ params.map Prod.fst))).isEmpty = false := by
      cases h : ["to", "subject", "body"].filter
          (fun p => decide (¬ p ∈ params.map Prod.fst)) with
      | nil => rw [h] at hmm; simp at hmm
      | cons a l => rfl
    have hv : validateModeParameters "gmail" "send" (params.map Prod.fst) =
        (false, some ("Missing required parameters: " ++ joinSep ", "
          (["to", "subject", "body"].filter
            (fun p => decide (¬ p ∈ params.map Prod.fst))))) := by
      rw [validate_gmail_send_eq, if_neg (by rw [hne]; simp)]
    refine ⟨"Missing required parameters: " ++ joinSep ", "
      (["to", "subject", "body"].filter
        (fun p => decide (¬ p ∈ params.map Prod.fst))), ?_⟩
    simp only [gmailValidateParameters, hv, Option.getD_some]
  · intro toAddr hto hbad
    rcases h : validateModeParameters "gmail" "send" (params.map Prod.fst) with ⟨valid, e⟩
    cases valid
    · exact ⟨e.getD "None", by rw [gmailValidateParameters, h]⟩
    · refine ⟨"Invalid \x27to\x27 email address: " ++ toAddr, ?_⟩
      rw [gmailValidateParameters, h]
      simp [hto, hbad]
  · intro cc hcc hccne hbad
    rcases h : validateModeParameters "gmail" "send" (params.map Prod.fst) with ⟨valid, e⟩
    cases valid
    · exact ⟨e.getD "None", by rw [gmailValidateParameters, h]⟩
    · rcases hto : alookup params "to" with _ | toAddr
      · exact ⟨"Invalid \x27to\x27 email address: None", by
          rw [gmailValidateParameters, h]; simp [hto]⟩
      · by_cases hv : isValidEmail toAddr
        · refine ⟨"Invalid \x27cc\x27 email address: " ++ cc, ?_⟩
          rw [gmailValidateParameters, h]
          simp [hto, hv, hcc, hccne, hbad]
        · refine ⟨"Invalid \x27to\x27 email address: " ++ toAddr, ?_⟩
          rw [gmailValidateParameters, h]
          simp [hto, hv]
  · intro e he
    simp [agentRunTask, he]

/-- Witness for C9 applying the theorem at a parameter map with no to key. -/
theorem email_validation_witness :
    alookup [("subject", "s"), ("body", "b")] "to" = none ∧
    ∃ e, gmailValidateParameters "send" [("subject", "s"), ("body", "b")] = .error e :=
  ⟨rfl, (email_validation [("subject", "s"), ("body", "b")] "u" (fun _ => .vnone)).2.1 rfl⟩

/-! ## Template filling and data extraction
(ExecutionEngine._fill_template, ExecutionEngine._extract_required_data) -/

/-- Fuel-driven scanner behind replaceSub; the fuel is always at least the
length of the remaining text, so the zero case is unreachable. -/
def replaceSubAux (pat rep : List Char) : Nat → List Char → List Char
  | 0, s => s
  | _ + 1, [] => []
  | fuel + 1, c :: cs =>
    if leadSeg pat (c :: cs) && !pat.isEmpty then
      rep ++ replaceSubAux pat rep fuel (List.drop pat.length (c :: cs))
    else c :: replaceSubAux pat rep fuel cs

/-- Python str.replace: replace every non-overlapping occurrence of pat,
scanning left to right. The empty pattern never arises here (patterns are
always brace-delimited placeholders). -/
def replaceSub (pat rep s : List Char) : List Char :=
  replaceSubAux pat rep s.length s

/-- ExecutionEngine._fill_template value formatting: a list becomes a
1-indexed numbered block, a dict becomes key: value lines, and anything else
its Python textual form. -/
def formatValue : PyVal → String
  | .vlist l => joinSep "\n" (l.enum.map (fun p => toString (p.1 + 1) ++ ". " ++ pyStr p.2))
  | .vdict m => joinSep "\n" (m.map (fun p => p.1 ++ ": " ++ pyStr p.2))
  | v => pyStr v

/-- ExecutionEngine._fill_template: for each data entry in order, replace
every occurrence of its brace-wrapped key by the formatted value. -/
def fillTemplate (template : String) (data : List (String × PyVal)) : String :=
  data.foldl (fun result kv =>
    ⟨replaceSub ("\x7b" ++ kv.1 ++ "\x7d").data (formatValue kv.2).data result.data⟩)
    template

/-- Python int() restricted to an optional sign followed by decimal digits. -/
def decimalVal (ds : List Char) : Int :=
  ds.foldl (fun acc c => acc * 10 + ((c.toNat : Int) - ('0'.toNat : Int))) 0

/-- Python int() on the index text of a path segment. -/
def parseIndex (s : String) : Option Int :=
  match s.data with
  | [] => none
  | c :: ds =>
    if c = '-' then
      (if ds ≠ [] ∧ ds.all Char.isDigit then some (-(decimalVal ds)) else none)
    else if c = '+' then
      (if ds ≠ [] ∧ ds.all Char.isDigit then some (decimalVal ds) else none)
    else if (c :: ds).all Char.isDigit then some (decimalVal (c :: ds)) else none

/-- Python sequence index normalization (negative indices count from the end);
none on IndexError. -/
def normIdx (len : Nat) (i : Int) : Option Nat :=
  if 0 ≤ i then (if i.toNat < len then some i.toNat else none)
  else (if (-i).toNat ≤ len then some (len - (-i).toNat) else none)

/-- Python subscript value[k] with a string key: only dict lookups succeed
(KeyError and TypeError both raise, hence none). -/
def pySubscriptStr (v : PyVal) (k : String) : Option PyVal :=
  match v with
  | .vdict m => alookup m k
  | _ => none

/-- Python subscript value[i] with an integer index: list and string
indexing succeed in range; everything else raises. -/
def pySubscriptIdx (v : PyVal) (i : Int) : Option PyVal :=
  match v with
  | .vlist l => (normIdx l.length i).bind (fun n => l.get? n)
  | .vstr s => (normIdx s.data.length i).bind
      (fun n => (s.data.get? n).map (fun c => .vstr ⟨[c]⟩))
  | _ => none

/-- Plain path segment: dict .get(field, value) defaulting to the current
value itself; a non-dict receiver raises (AttributeError), hence none. -/
def navPlain (v : PyVal) (field : String) : Option PyVal :=
  match v with
  | .vdict m => some ((alookup m field).getD v)
  | _ => none

/-- One path segment of ExecutionEngine._extract_required_data: a segment
containing both brackets is split into a name and an index, otherwise it is a
plain dict get with the current value as default. -/
def navSeg (v : PyVal) (field : String) : Option PyVal :=
  if strContains field "[" && strContains field "]" then
    let fieldName : String := ⟨field.data.takeWhile (fun c => c ≠ '[')⟩
    let idxStr : String :=
      ⟨((field.data.dropWhile (fun c => c ≠ '[')).drop 1).takeWhile
        (fun c => !(c = '[' || c = ']'))⟩
    match parseIndex idxStr with
    | none => none
    | some i => (pySubscriptStr v fieldName).bind (fun w => pySubscriptIdx w i)
  else navPlain v field

/-- Walk a dotted field path segment by segment; any failure aborts this
parameter only. -/
def navigatePath (v : PyVal) : List String → Option PyVal
  | [] => some v
  | f :: fs => (navSeg v f).bind (fun w => navigatePath w fs)

/-- Split a character list on a separator, keeping empty segments, as Python
str.split does. -/
def splitChar (c : Char) : List Char → List (List Char)
  | [] => [[]]
  | x :: xs =>
    let r := splitChar c xs
    if x = c then [] :: r
    else
      match r with
      | [] => [[x]]
      | y :: ys => (x :: y) :: ys

/-- Extraction of one required input: split the source path into a task id
and a field path at the first dot, fetch the stored result (skipping absent
or falsy results), then walk the field path. -/
def extractOne (ctx : List (String × PyVal)) (sourcePath : String) : Option PyVal :=
  let taskId : String := ⟨sourcePath.data.takeWhile (fun c => c ≠ '.')⟩
  let rest := sourcePath.data.dropWhile (fun c => c ≠ '.')
  let fieldPath : String := match rest with | [] => "" | _ :: t => ⟨t⟩
  match alookup ctx taskId with
  | none => none
  | some res =>
    if !pyTruthy res then none
    else if fieldPath.isEmpty then some res
    else navigatePath res ((splitChar '.' fieldPath.data).map (fun cs => (⟨cs⟩ : String)))

/-- ExecutionEngine._extract_required_data: each parameter is extracted
independently; a failed parameter is skipped (its exception is caught) and
the loop continues. -/
def extractRequiredData (ctx : List (String × PyVal))
    (inputs : List (String × String)) : List (String × PyVal) :=
  inputs.foldl (fun acc pr =>
    match extractOne ctx pr.2 with
    | none => acc
    | some v => acc ++ [(pr.1, v)]) []

theorem extractRequiredData_go (ctx : List (String × PyVal))
    (inputs : List (String × String)) (acc : List (String × PyVal)) :
    inputs.foldl (fun acc pr =>
      match extractOne ctx pr.2 with
      | none => acc
      | some v => acc ++ [(pr.1, v)]) acc =
    acc ++ inputs.filterMap (fun pr => (extractOne ctx pr.2).map (fun v => (pr.1, v))) := by
  induction inputs generalizing acc with
  | nil => simp
  | cons pr rest ih =>
    simp only [List.foldl_cons, List.filterMap_cons]
    cases h : extractOne ctx pr.2 with
    | none => simp [h, ih]
    | some v => simp [h, ih]

theorem replaceSubAux_no_occ (pat rep : List Char) (hp : pat ≠ []) :
    ∀ fuel s, hasSeg pat s = false → replaceSubAux pat rep fuel s = s := by
  intro fuel
  induction fuel with
  | zero => intro s _; rfl
  | succ f ih =>
    intro s hs
    cases s with
    | nil => rfl
    | cons c cs =>
      simp only [hasSeg, Bool.or_eq_false_iff] at hs
      simp [replaceSubAux, hs.1, ih cs hs.2]

/-- C4: filling a single-key template replaces every occurrence of the
brace-wrapped key by the formatted value (lists become 1-indexed numbered
blocks, dicts become key: value lines, scalars their textual form; a
template without the placeholder is unchanged), and the worked example from
the specification evaluates as stated. -/
theorem template_filling :
    (∀ (t : String) k v, fillTemplate t [(k, v)] =
      ⟨replaceSub ("\x7b" ++ k ++ "\x7d").data (formatValue v).data t.data⟩) ∧
    (∀ pat rep (s : List Char), pat ≠ [] → hasSeg pat s = false →
      replaceSub pat rep s = s) ∧
    (∀ l, formatValue (.vlist l) = joinSep "\n"
      (l.enum.map (fun p => toString (p.1 + 1) ++ ". " ++ pyStr p.2))) ∧
    (∀ m, formatValue (.vdict m) = joinSep "\n"
      (m.map (fun p => p.1 ++ ": " ++ pyStr p.2))) ∧
    (∀ s, formatValue (.vstr s) = s) ∧
    fillTemplate "Hi,\n\x7brepo_list\x7d"
      [("repo_list", .vlist [.vstr "alpha", .vstr "beta"])] = "Hi,\n1. alpha\n2. beta" := by
  refine ⟨fun t k v => rfl, fun pat rep s hp hs => replaceSubAux_no_occ pat rep hp _ s hs,
    fun l => rfl, fun m => rfl, fun s => rfl, ?_⟩
  rfl

theorem takeWhile_append_stop (p : Char → Bool) (l₁ : List Char) (x : Char)
    (l₂ : List Char) (h1 : ∀ c ∈ l₁, p c = true) (hx : p x = false) :
    (l₁ ++ x :: l₂).takeWhile p = l₁ := by
  induction l₁ with
  | nil => simp [List.takeWhile, hx]
  | cons a l ih =>
    simp only [List.cons_append, List.takeWhile_cons, h1 a (by simp), if_pos]
    rw [ih (fun c hc => h1 c (by simp [hc]))]

theorem dropWhile_append_stop (p : Char → Bool) (l₁ : List Char) (x : Char)
    (l₂ : List Char) (h1 : ∀ c ∈ l₁, p c = true) (hx : p x = false) :
    (l₁ ++ x :: l₂).dropWhile p = x :: l₂ := by
  induction l₁ with
  | nil => simp [List.dropWhile, hx]
  | cons a l ih =>
    simp only [List.cons_append, List.dropWhile_cons, h1 a (by simp)]
    exact ih (fun c hc => h1 c (by simp [hc]))

theorem isDigit_toNat_ge (c : Char) (h : c.isDigit = true) : 48 ≤ c.toNat := by
  simp only [Char.isDigit, Bool.and_eq_true, decide_eq_true_eq] at h
  have := h.1
  simp only [Char.le_def] at this
  exact this

theorem decimalVal_nonneg (ds : List Char) (h : ds.all Char.isDigit = true) :
    0 ≤ decimalVal ds := by
  suffices H : ∀ acc : Int, 0 ≤ acc →
      0 ≤ ds.foldl (fun acc c => acc * 10 + ((c.toNat : Int) - ('0'.toNat : Int))) acc by
    exact H 0 le_rfl
  induction ds with
  | nil => intro acc hacc; simpa using hacc
  | cons c cs ih =>
    intro acc hacc
    simp only [List.all_cons, Bool.and_eq_true] at h
    refine ih h.2 _ ?_
    have hc := isDigit_toNat_ge c h.1
    have hz : ('0'.toNat : Int) = 48 := by decide
    show 0 ≤ acc * 10 + ((c.toNat : Int) - ('0'.toNat : Int))
    rw [hz]
    omega

theorem parseIndex_digits (s : String) (h1 : s.data ≠ [])
    (h2 : s.data.all Char.isDigit = true) :
    parseIndex s = some (decimalVal s.data) := by
  rcases hd : s.data with _ | ⟨c, ds⟩
  · exact absurd hd h1
  · rw [hd] at h2
    simp only [List.all_cons, Bool.and_eq_true] at h2
    have hcm : c ≠ '-' := by
      intro he; rw [he] at h2; exact absurd h2.1 (by decide)
    have hcp : c ≠ '+' := by
      intro he; rw [he] at h2; exact absurd h2.1 (by decide)
    have hall : (c :: ds).all Char.isDigit = true := by
      simp [List.all_cons, h2.1, h2.2]
    simp only [parseIndex, hd, if_neg hcm, if_neg hcp, hall, if_pos]

/-- C5: extraction walks dotted source paths over stored results: each
parameter is extracted independently (a failing parameter is omitted, the
others survive), a plain segment with an absent key leaves the current value
unchanged, a present key replaces it, a name[index] segment indexes into the
list found under the name, and the worked example from the specification
yields first_repo = alpha. -/
theorem extraction_path_walking :
    (∀ ctx inputs, extractRequiredData ctx inputs =
      inputs.filterMap (fun pr => (extractOne ctx pr.2).map (fun v => (pr.1, v)))) ∧
    (∀ m (field : String), (strContains field "[" && strContains field "]") = false →
      alookup m field = none → navSeg (.vdict m) field = some (.vdict m)) ∧
    (∀ m (field : String) w, (strContains field "[" && strContains field "]") = false →
      alookup m field = some w → navSeg (.vdict m) field = some w) ∧
    (∀ m (name digits : String) (l : List PyVal),
      name.data.all (fun c => !(c = '[' || c = ']')) = true →
      digits.data ≠ [] → digits.data.all Char.isDigit = true →
      alookup m name = some (.vlist l) →
      (decimalVal digits.data).toNat < l.length →
      navSeg (.vdict m) (name ++ "[" ++ digits ++ "]") =
        l.get? (decimalVal digits.data).toNat) ∧
    extractRequiredData
      [("task_1", .vdict [("repo_names",
        .vlist [.vstr "alpha", .vstr "beta", .vstr "gamma"])])]
      [("first_repo", "task_1.repo_names[0]")] = [("first_repo", .vstr "alpha")] := by
  refine ⟨fun ctx inputs => extractRequiredData_go ctx inputs [], ?_, ?_, ?_, ?_⟩
  · intro m field hbr habs
    simp [navSeg, hbr, navPlain, habs]
  · intro m field w hbr hsome
    simp [navSeg, hbr, navPlain, hsome]
  · intro m name digits l hname hne hdig hlook hlt
    have hdata : (name ++ "[" ++ digits ++ "]").data =
        name.data ++ '[' :: (digits.data ++ [']']) := by
      simp [String.data_append]
    have hnb : ∀ c ∈ name.data, (c ≠ '[' : Bool) = true := by
      intro c hc
      have := List.all_eq_true.1 hname c hc
      simp only [Bool.not_eq_true', Bool.or_eq_false_iff, decide_eq_false_iff_not] at this
      simp [this.1]
    have hdb : ∀ c ∈ digits.data, (!(c = '[' || c = ']')) = true := by
      intro c hc
      have hcd := List.all_eq_true.1 hdig c hc
      have h1 : c ≠ '[' := by intro he; rw [he] at hcd; exact absurd hcd (by decide)
      have h2 : c ≠ ']' := by intro he; rw [he] at hcd; exact absurd hcd (by decide)
      simp [h1, h2]
    have hcontl : strContains (name ++ "[" ++ digits ++ "]") "[" = true := by
      rw [strContains, hasSeg_iff]
      exact ⟨name.data, digits.data ++ [']'], by simpa using hdata⟩
    have hcontr : strContains (name ++ "[" ++ digits ++ "]") "]" = true := by
      rw [strContains, hasSeg_iff]
      exact ⟨name.data ++ '[' :: digits.data, [], by simpa using hdata⟩
    have htk : (name ++ "[" ++ digits ++ "]").data.takeWhile (fun c => c ≠ '[') =
        name.data := by
      rw [hdata]
      exact takeWhile_append_stop _ name.data '[' _ (fun c hc => by
        simpa using hnb c hc) (by simp)
    have hdw : (name ++ "[" ++ digits ++ "]").data.dropWhile (fun c => c ≠ '[') =
        '[' :: (digits.data ++ [']']) := by
      rw [hdata]
      exact dropWhile_append_stop _ name.data '[' _ (fun c hc => by
        simpa using hnb c hc) (by simp)
    have hidx : (((name ++ "[" ++ digits ++ "]").data.dropWhile
        (fun c => c ≠ '[')).drop 1).takeWhile (fun c => !(c = '[' || c = ']')) =
        digits.data := by
      rw [hdw]
      simp only [List.drop_one, List.tail_cons]
      exact takeWhile_append_stop _ digits.data ']' [] hdb (by simp)
    have hparse : parseIndex ⟨digits.data⟩ = some (decimalVal digits.data) :=
      parseIndex_digits ⟨digits.data⟩ hne hdig
    have h0 : (0 : Int) ≤ decimalVal digits.data := decimalVal_nonneg digits.data hdig
    have hlook2 : alookup m ⟨name.data⟩ = some (.vlist l) := hlook
    simp only [navSeg, hcontl, hcontr, Bool.and_self, if_pos, htk, hidx]
    rw [hparse]
    simp only [pySubscriptStr, hlook2]
    simp only [Option.some_bind, pySubscriptIdx, normIdx, if_pos h0, if_pos hlt,
      Option.some_bind]
  · rfl

/-- Witness for C4 applying the placeholder-free conjunct at concrete data. -/
theorem template_filling_witness :
    ("\x7bz\x7d".data ≠ [] ∧ hasSeg "\x7bz\x7d".data "abc".data = false) ∧
    replaceSub "\x7bz\x7d".data "Q".data "abc".data = "abc".data :=
  ⟨⟨by decide, by decide⟩, template_filling.2.1 _ _ _ (by decide) (by decide)⟩

/-- Witness for C5 applying the indexing conjunct at the worked example. -/
theorem extraction_path_walking_witness :
    ("repo_names".data.all (fun c => !(c = '[' || c = ']')) = true ∧
      "0".data ≠ [] ∧ "0".data.all Char.isDigit = true ∧
      alookup [("repo_names",
        PyVal.vlist [.vstr "alpha", .vstr "beta", .vstr "gamma"])] "repo_names" =
        some (.vlist [.vstr "alpha", .vstr "beta", .vstr "gamma"]) ∧
      (decimalVal "0".data).toNat <
        [PyVal.vstr "alpha", .vstr "beta", .vstr "gamma"].length) ∧
    navSeg (.vdict [("repo_names", .vlist [.vstr "alpha", .vstr "beta", .vstr "gamma"])])
      ("repo_names" ++ "[" ++ "0" ++ "]") =
      [PyVal.vstr "alpha", .vstr "beta", .vstr "gamma"].get?
        (decimalVal "0".data).toNat :=
  ⟨⟨by decide, by decide, by decide, rfl, by decide⟩,
    extraction_path_walking.2.2.2.1 _ "repo_names" "0" _ (by decide) (by decide)
      (by decide) rfl (by decide)⟩

/-! ## Execution engine graph and topological sort
(ExecutionEngine._build_task_graph, _topological_sort, _execute_sequential)

The task graph of _build_task_graph is a node map (task id to task) and a
forward-edge map (id to the dependents it unblocks, in construction order
and with multiplicity). The node map is embedded as the task list itself
with first-match lookup — identical to the Python dict for the duplicate-free
id lists the theorems assume — and the edge map as the function dependentsOf,
which reproduces per-key order and multiplicity. In-degrees are Python ints,
embedded as Int since they can be driven below zero. -/

/-- One in-memory plan task (the shared Task data model). -/
structure PTask where
  id : String
  agentType : String
  mode : String
  deps : List String
  requiredInputs : List (String × String)
  parameters : List (String × PyVal)

/-- Identifier list of a plan, the key set of the node map. -/
def taskIds (tasks : List PTask) : List String := tasks.map (·.id)

/-- Node-map lookup. -/
def findTask (tasks : List PTask) (v : String) : Option PTask :=
  tasks.find? (fun t => t.id = v)

/-- Forward edges out of a node: every task listing it as a dependency, in
plan order, once per occurrence. -/
def dependentsOf (tasks : List PTask) (d : String) : List String :=
  tasks.flatMap (fun t => t.deps.filterMap (fun x => if x = d then some t.id else none))

/-- Increment the value of the first binding of a key. -/
def bumpKey (m : List (String × Int)) (k : String) : List (String × Int) :=
  match m with
  | [] => []
  | (k₁, v) :: rest => if k₁ = k then (k₁, v + 1) :: rest else (k₁, v) :: bumpKey rest k

/-- Decrement the value of the first binding of a key. -/
def decKey (m : List (String × Int)) (k : String) : List (String × Int) :=
  match m with
  | [] => []
  | (k₁, v) :: rest => if k₁ = k then (k₁, v - 1) :: rest else (k₁, v) :: decKey rest k

/-- All dependency edges as (dependency, dependent) pairs, including edges
whose source id names no task of the plan. -/
def allEdgePairs (tasks : List PTask) : List (String × String) :=
  tasks.flatMap (fun t => t.deps.map (fun d => (d, t.id)))

/-- In-degree table of _topological_sort: zero for every node, then one
increment per incoming edge. -/
def initInDeg (tasks : List PTask) : List (String × Int) :=
  (allEdgePairs tasks).foldl (fun m pr => bumpKey m pr.2)
    (tasks.map (fun t => (t.id, (0 : Int))))

/-- Processing of one popped node: decrement each dependent, enqueueing those
that reach exactly zero, in processing order. -/
def kahnStep (tasks : List PTask) (inDeg : List (String × Int)) (q : String) :
    List (String × Int) × List String :=
  (dependentsOf tasks q).foldl
    (fun st dep =>
      let m := decKey st.1 dep
      if alookup m dep = some 0 then (m, st.2 ++ [dep]) else (m, st.2))
    (inDeg, [])

/-- The Kahn worklist loop. The fuel always dominates the number of
iterations (each iteration moves one fresh node into sorted), so the zero
case is unreachable from topologicalSort. -/
def kahnLoop (tasks : List PTask) :
    Nat → List String → List (String × Int) → List String → List String × List String
  | 0, queue, _, sorted => (sorted, queue)
  | _ + 1, [], _, sorted => (sorted, [])
  | fuel + 1, q :: qs, inDeg, sorted =>
    let st := kahnStep tasks inDeg q
    kahnLoop tasks fuel (qs ++ st.2) st.1 (sorted ++ [q])

/-- The full Kahn run: initial in-degrees, initial queue of zero-degree nodes
in node order, then the loop. -/
def kahnRun (tasks : List PTask) : List String × List String :=
  let inDeg := initInDeg tasks
  let queue := inDeg.filterMap (fun kv => if kv.2 = 0 then some kv.1 else none)
  kahnLoop tasks (tasks.length + 1) queue inDeg []

/-- The error message of _topological_sort. -/
def circularMsg : String := "Circular dependency detected in task graph"

/-- ExecutionEngine._topological_sort: the sorted list must cover every node,
otherwise the circular-dependency error is raised. -/
def topologicalSort (tasks : List PTask) : Except String (List String) :=
  let sorted := (kahnRun tasks).1
  if sorted.length = tasks.length then .ok sorted else .error circularMsg

/-- Status check of the dependency gate: stored result has status success. -/
def statusIsSuccess (r : PyVal) : Bool :=
  match pyGet r "status" with
  | some (.vstr s) => s = "success"
  | _ => false

/-- One failed-dependency test of _execute_sequential: absent, falsy, or
non-success stored result. -/
def isFailedDep (ctx : List (String × PyVal)) (d : String) : Bool :=
  match alookup ctx d with
  | none => true
  | some r => !pyTruthy r || !statusIsSuccess r

/-- The error envelope stored for a task whose dependencies failed. The
wall-clock timestamp of the metadata is not modelled. -/
def depErrorResult (msg : String) : PyVal :=
  .vdict [("status", .vstr "error"), ("data", .vnone),
    ("metadata", .vdict [("execution_time", .vint 0)]),
    ("error", .vdict [("type", .vstr "DependencyError"), ("message", .vstr msg)])]

/-- Parameter filling before execution: templated string parameters go
through _fill_template, parameters named in the extracted set are replaced
outright. -/
def fillTaskParams (ctx : List (String × PyVal)) (task : PTask) : PTask :=
  let extracted := extractRequiredData ctx task.requiredInputs
  { task with parameters := task.parameters.map (fun pr =>
      match pr.2 with
      | .vstr s =>
        if strContains s "\x7b" then (pr.1, .vstr (fillTemplate s extracted))
        else
          match alookup extracted pr.1 with
          | some v => (pr.1, v)
          | none => pr
      | _ =>
        match alookup extracted pr.1 with
        | some v => (pr.1, v)
        | none => pr) }

/-- State threaded through sequential execution: the execution context, the
collected result list, and the ids of tasks whose agent execution was
actually invoked. -/
structure SeqState where
  ctx : List (String × PyVal)
  results : List PyVal
  invoked : List String

/-- One iteration of the _execute_sequential loop for a scheduled task id:
gate on failed dependencies, otherwise fill parameters and invoke the agent.
The node lookup cannot fail for ids produced by the topological sort. -/
def seqStep (exec : PTask → PyVal) (tasks : List PTask) (s : SeqState) (tid : String) :
    SeqState :=
  match findTask tasks tid with
  | none => s
  | some task =>
    let failed := task.deps.filter (fun d => isFailedDep s.ctx d)
    if failed.isEmpty then
      let task2 := if task.requiredInputs.isEmpty then task else fillTaskParams s.ctx task
      let r := exec task2
      { ctx := (tid, r) :: s.ctx, results := s.results ++ [r],
        invoked := s.invoked ++ [tid] }
    else
      let msg := "Cannot execute " ++ tid ++ ": dependency " ++
        joinSep ", " failed ++ " failed"
      let r := depErrorResult msg
      { ctx := (tid, r) :: s.ctx, results := s.results ++ [r], invoked := s.invoked }

/-- The _execute_sequential loop over a computed order. -/
def runOrder (exec : PTask → PyVal) (tasks : List PTask) (s : SeqState)
    (order : List String) : SeqState :=
  order.foldl (seqStep exec tasks) s

/-- ExecutionEngine._execute_sequential: topological sort first (an ordering
failure re-raises before anything runs), then the gated per-task loop. -/
def executeSequential (exec : PTask → PyVal) (tasks : List PTask) :
    Except String (List PyVal) × List (String × PyVal) × List String :=
  match topologicalSort tasks with
  | .error e => (.error e, [], [])
  | .ok order =>
    let s := runOrder exec tasks ⟨[], [], []⟩ order
    (.ok s.results, s.ctx, s.invoked)

/-- One declared dependency step: a depends on b. -/
def dependsOn (tasks : List PTask) (a b : String) : Prop :=
  ∃ t ∈ tasks, t.id = a ∧ b ∈ t.deps

/-- A dependency cycle somewhere in the plan. -/
def CycleExists (tasks : List PTask) : Prop :=
  ∃ x, Relation.TransGen (dependsOn tasks) x x

/-! ### Association-list and position lemmas -/

theorem alookup_mem {α : Type} (m : List (String × α)) (k : String) (v : α)
    (h : alookup m k = some v) : (k, v) ∈ m := by
  induction m with
  | nil => simp [alookup] at h
  | cons kv rest ih =>
    obtain ⟨k₁, w⟩ := kv
    by_cases hk : k₁ = k
    · subst hk
      rw [alookup, if_pos rfl] at h
      injection h with h
      exact List.mem_cons.2 (Or.inl (by rw [h]))
    · rw [alookup, if_neg hk] at h
      exact List.mem_cons.2 (Or.inr (ih h))

theorem mem_alookup_of_nodup {α : Type} (m : List (String × α))
    (hnd : (m.map Prod.fst).Nodup) (k : String) (v : α) (h : (k, v) ∈ m) :
    alookup m k = some v := by
  induction m with
  | nil => simp at h
  | cons kv rest ih =>
    obtain ⟨k₁, w⟩ := kv
    simp only [List.map_cons, List.nodup_cons] at hnd
    rcases List.mem_cons.1 h with he | hm
    · cases he
      simp [alookup]
    · have hk : k₁ ≠ k := by
        intro he
        subst he
        exact hnd.1 (by simpa using List.mem_map_of_mem Prod.fst hm)
      simp [alookup, hk, ih hnd.2 hm]

theorem decKey_keys (m : List (String × Int)) (k : String) :
    (decKey m k).map Prod.fst = m.map Prod.fst := by
  induction m with
  | nil => rfl
  | cons kv rest ih =>
    obtain ⟨k₁, v⟩ := kv
    by_cases h : k₁ = k <;> simp [decKey, h, ih]

theorem bumpKey_keys (m : List (String × Int)) (k : String) :
    (bumpKey m k).map Prod.fst = m.map Prod.fst := by
  induction m with
  | nil => rfl
  | cons kv rest ih =>
    obtain ⟨k₁, v⟩ := kv
    by_cases h : k₁ = k <;> simp [bumpKey, h, ih]

theorem alookup_decKey (m : List (String × Int)) (k k' : String) :
    alookup (decKey m k) k' =
      if k' = k then (alookup m k).map (fun v => v - 1) else alookup m k' := by
  induction m with
  | nil => by_cases h : k' = k <;> simp [decKey, alookup, h]
  | cons kv rest ih =>
    obtain ⟨k₁, v⟩ := kv
    by_cases h1 : k₁ = k
    · subst h1
      by_cases h2 : k' = k₁
      · subst h2
        simp [decKey, alookup]
      · simp [decKey, alookup, h2, Ne.symm h2, ih]
    · by_cases h2 : k' = k₁
      · subst h2
        simp [decKey, alookup, h1, Ne.symm h1]
      · simp [decKey, alookup, h1, h2, Ne.symm h2, ih]

theorem alookup_bumpKey (m : List (String × Int)) (k k' : String) :
    alookup (bumpKey m k) k' =
      if k' = k then (alookup m k).map (fun v => v + 1) else alookup m k' := by
  induction m with
  | nil => by_cases h : k' = k <;> simp [bumpKey, alookup, h]
  | cons kv rest ih =>
    obtain ⟨k₁, v⟩ := kv
    by_cases h1 : k₁ = k
    · subst h1
      by_cases h2 : k' = k₁
      · subst h2
        simp [bumpKey, alookup]
      · simp [bumpKey, alookup, h2, Ne.symm h2, ih]
    · by_cases h2 : k' = k₁
      · subst h2
        simp [bumpKey, alookup, h1, Ne.symm h1]
      · simp [bumpKey, alookup, h1, h2, Ne.symm h2, ih]

theorem pos_append_of_mem (l r : List String) (a : String) (h : a ∈ l) :
    pos (l ++ r) a = pos l a := by
  induction l with
  | nil => simp at h
  | cons x xs ih =>
    by_cases hx : x = a
    · simp [pos, hx]
    · rcases List.mem_cons.1 h with he | hm
      · exact absurd he.symm hx
      · simp [pos, hx, ih hm]

theorem pos_append_self (l : List String) (a : String) (h : ¬ a ∈ l) :
    pos (l ++ [a]) a = l.length := by
  induction l with
  | nil => simp [pos]
  | cons x xs ih =>
    have hx : x ≠ a := by
      intro he
      exact h (by simp [he])
    simp only [List.cons_append, pos, if_neg hx, List.length_cons]
    exact congrArg (fun n => n + 1) (ih (fun hm => h (by simp [hm])))

theorem pos_lt_length (l : List String) (a : String) (h : a ∈ l) :
    pos l a < l.length := by
  induction l with
  | nil => simp at h
  | cons x xs ih =>
    by_cases hx : x = a
    · simp [pos, hx]
    · rcases List.mem_cons.1 h with he | hm
      · exact absurd he.symm hx
      · simp only [pos, if_neg hx, List.length_cons]
        exact Nat.succ_lt_succ (ih hm)

theorem nodup_length_le (l L : List String) (h1 : l.Nodup) (h2 : ∀ x ∈ l, x ∈ L) :
    l.length ≤ L.length := by
  calc l.length = l.toFinset.card := (List.toFinset_card_of_nodup h1).symm
    _ ≤ L.toFinset.card := Finset.card_le_card (fun x hx =>
        List.mem_toFinset.2 (h2 x (List.mem_toFinset.1 hx)))
    _ ≤ L.length := List.toFinset_card_le L

/-! ### Initial in-degree table -/

/-- The dependent side of every edge, in construction order. -/
def edgeTargets (tasks : List PTask) : List String :=
  (allEdgePairs tasks).map Prod.snd

theorem map_pair_snd (l : List String) (a : String) :
    (l.map (fun d => (d, a))).map Prod.snd = List.replicate l.length a := by
  induction l with
  | nil => rfl
  | cons x xs ih => simp [ih, List.replicate_succ]

theorem edgeTargets_cons (t : PTask) (ts : List PTask) :
    edgeTargets (t :: ts) = List.replicate t.deps.length t.id ++ edgeTargets ts := by
  simp only [edgeTargets, allEdgePairs, List.flatMap_cons, List.map_append]
  rw [map_pair_snd]

theorem mem_edgeTargets (ts : List PTask) (v : String) (hv : v ∈ edgeTargets ts) :
    v ∈ taskIds ts := by
  simp only [edgeTargets, allEdgePairs, List.mem_map] at hv
  obtain ⟨pr, hpr, hsnd⟩ := hv
  simp only [List.mem_flatMap, List.mem_map] at hpr
  obtain ⟨t₂, ht₂, d, _, hpair⟩ := hpr
  subst hpair
  subst hsnd
  exact List.mem_map_of_mem _ ht₂

theorem count_edgeTargets (tasks : List PTask) (hnd : (taskIds tasks).Nodup)
    (t : PTask) (ht : t ∈ tasks) : (edgeTargets tasks).count t.id = t.deps.length := by
  induction tasks with
  | nil => simp at ht
  | cons t' ts ih =>
    simp only [taskIds, List.map_cons, List.nodup_cons] at hnd
    rw [edgeTargets_cons, List.count_append]
    rcases List.mem_cons.1 ht with he | hm
    · subst he
      rw [List.count_replicate, if_pos (by simp)]
      have hz : (edgeTargets ts).count t.id = 0 :=
        List.count_eq_zero.2 (fun hc => hnd.1 (mem_edgeTargets ts t.id hc))
      omega
    · have hne : t'.id ≠ t.id := by
        intro he
        exact hnd.1 (he ▸ List.mem_map_of_mem (·.id) hm)
      rw [List.count_replicate, if_neg (by simpa using hne), ih hnd.2 hm]
      omega

theorem alookup_bumpFold (ks : List String) (m : List (String × Int)) (v : String) :
    alookup (ks.foldl bumpKey m) v = (alookup m v).map (fun x => x + (ks.count v : Int)) := by
  induction ks generalizing m with
  | nil =>
    cases h : alookup m v <;> simp [h]
  | cons k ks ih =>
    rw [List.foldl_cons, ih, alookup_bumpKey]
    by_cases h : v = k
    · subst h
      rw [if_pos rfl, List.count_cons, if_pos (by simp)]
      cases hm : alookup m v <;> simp [hm] <;> ring
    · rw [if_neg h, List.count_cons, if_neg (by simpa using Ne.symm h)]
      simp

theorem bumpFold_keys (ks : List String) (m : List (String × Int)) :
    (ks.foldl bumpKey m).map Prod.fst = m.map Prod.fst := by
  induction ks generalizing m with
  | nil => rfl
  | cons k ks ih => rw [List.foldl_cons, ih, bumpKey_keys]

theorem alookup_zeroTable (tasks : List PTask) (v : String) :
    alookup (tasks.map (fun t => (t.id, (0 : Int)))) v =
      if v ∈ taskIds tasks then some 0 else none := by
  induction tasks with
  | nil => simp [alookup, taskIds]
  | cons t ts ih =>
    by_cases h : t.id = v
    · simp [alookup, h, taskIds]
    · simp only [List.map_cons, alookup, if_neg h, ih]
      rw [show taskIds (t :: ts) = t.id :: taskIds ts from rfl]
      by_cases hm : v ∈ taskIds ts
      · rw [if_pos hm, if_pos (List.mem_cons_of_mem _ hm)]
      · rw [if_neg hm, if_neg (show ¬ v ∈ t.id :: taskIds ts from
          fun hc => (List.mem_cons.1 hc).elim (fun he => h he.symm) hm)]

theorem initInDeg_eq_bumpFold (tasks : List PTask) :
    initInDeg tasks = (edgeTargets tasks).foldl bumpKey
      (tasks.map (fun t => (t.id, (0 : Int)))) := by
  rw [initInDeg, edgeTargets, List.foldl_map]

theorem initInDeg_keys (tasks : List PTask) :
    (initInDeg tasks).map Prod.fst = taskIds tasks := by
  rw [initInDeg_eq_bumpFold, bumpFold_keys]
  simp [taskIds]

theorem alookup_initInDeg (tasks : List PTask) (hnd : (taskIds tasks).Nodup)
    (t : PTask) (ht : t ∈ tasks) :
    alookup (initInDeg tasks) t.id = some (t.deps.length : Int) := by
  have hmem : t.id ∈ taskIds tasks := by
    simpa [taskIds] using List.mem_map_of_mem (·.id) ht
  rw [initInDeg_eq_bumpFold, alookup_bumpFold, alookup_zeroTable,
    if_pos hmem, count_edgeTargets tasks hnd t ht]
  simp

/-! ### Analysis of one Kahn iteration -/

/-- The fold inside kahnStep, abstracted over its starting state. -/
def stepFold (m : List (String × Int)) (acc ds : List String) :
    List (String × Int) × List String :=
  ds.foldl (fun st dep =>
    let m' := decKey st.1 dep
    if alookup m' dep = some 0 then (m', st.2 ++ [dep]) else (m', st.2)) (m, acc)

theorem kahnStep_eq_stepFold (tasks : List PTask) (inDeg : List (String × Int))
    (q : String) : kahnStep tasks inDeg q = stepFold inDeg [] (dependentsOf tasks q) := rfl

theorem stepFold_cons (m : List (String × Int)) (acc : List String) (d : String)
    (ds : List String) :
    stepFold m acc (d :: ds) =
      (if alookup (decKey m d) d = some 0
        then stepFold (decKey m d) (acc ++ [d]) ds
        else stepFold (decKey m d) acc ds) := by
  by_cases h : alookup (decKey m d) d = some 0 <;>
    simp [stepFold, List.foldl_cons, h]

theorem stepFold_spec (ds : List String) :
    ∀ (m : List (String × Int)) (acc : List String),
    (∀ v ∈ ds, ∃ k, alookup m v = some k ∧ (ds.count v : Int) ≤ k) →
    (∀ v, alookup (stepFold m acc ds).1 v =
      (alookup m v).map (fun k => k - (ds.count v : Int))) ∧
    ((stepFold m acc ds).1.map Prod.fst = m.map Prod.fst) ∧
    (∃ newQ, (stepFold m acc ds).2 = acc ++ newQ ∧ newQ.Nodup ∧
      (∀ v, v ∈ newQ ↔ v ∈ ds ∧ alookup (stepFold m acc ds).1 v = some 0)) := by
  induction ds with
  | nil =>
    intro m acc _
    refine ⟨fun v => ?_, rfl, [], by simp [stepFold], List.nodup_nil, by simp⟩
    cases h : alookup m v <;> simp [stepFold, h]
  | cons d ds ih =>
    intro m acc hge
    obtain ⟨kd, hkd, hkdge⟩ := hge d (by simp)
    have hkd1 : (1 : Int) ≤ kd := by
      have : ((d :: ds).count d : Int) = (ds.count d : Int) + 1 := by
        rw [List.count_cons_self]
        push_cast
        ring
      omega
    have hdec : alookup (decKey m d) d = some (kd - 1) := by
      rw [alookup_decKey, if_pos rfl, hkd]
      rfl
    have hge2 : ∀ v ∈ ds, ∃ k, alookup (decKey m d) v = some k ∧
        (ds.count v : Int) ≤ k := by
      intro v hv
      by_cases hvd : v = d
      · subst hvd
        refine ⟨kd - 1, hdec, ?_⟩
        have : ((v :: ds).count v : Int) = (ds.count v : Int) + 1 := by
          rw [List.count_cons_self]
          push_cast
          ring
        omega
      · obtain ⟨k, hk, hkge⟩ := hge v (by simp [hv])
        refine ⟨k, by rw [alookup_decKey, if_neg hvd]; exact hk, ?_⟩
        have : (d :: ds).count v = ds.count v := by
          simp [List.count_cons, hvd, Ne.symm hvd]
        omega
    have hcount_d : ((d :: ds).count d : Int) = (ds.count d : Int) + 1 := by
      rw [List.count_cons_self]
      push_cast
      ring
    have hcount_ne : ∀ v, v ≠ d → (d :: ds).count v = ds.count v := by
      intro v hv
      simp [List.count_cons, hv, Ne.symm hv]
    by_cases hzero : alookup (decKey m d) d = some 0
    · -- kd = 1: d is enqueued now and cannot recur in ds
      have hkdeq : kd = 1 := by
        rw [hdec] at hzero
        injection hzero with hz
        omega
      have hdnotin : ¬ d ∈ ds := by
        intro hmem
        have h1 : 1 ≤ ds.count d := List.count_pos_iff_mem.2 hmem
        have : ((d :: ds).count d : Int) ≤ kd := hkdge
        omega
      have hcds : (ds.count d : Int) = 0 := by
        simp [List.count_eq_zero.2 hdnotin]
      rw [stepFold_cons, if_pos hzero]
      obtain ⟨h1, h2, newQ, hq, hqnd, hqmem⟩ := ih (decKey m d) (acc ++ [d]) hge2
      refine ⟨fun v => ?_, by rw [h2, decKey_keys], d :: newQ, ?_, ?_, ?_⟩
      · rw [h1 v, alookup_decKey]
        by_cases hvd : v = d
        · subst hvd
          rw [if_pos rfl, hkd]
          show some ((kd - 1) - (ds.count v : Int)) = some (kd - ((v :: ds).count v : Int))
          rw [hcount_d]
          congr 1
          omega
        · rw [if_neg hvd, hcount_ne v hvd]
      · rw [hq]
        simp
      · refine List.nodup_cons.2 ⟨fun hmem => ?_, hqnd⟩
        exact hdnotin ((hqmem d).1 hmem).1
      · intro v
        rw [List.mem_cons, hqmem v]
        constructor
        · rintro (rfl | ⟨hv1, hv2⟩)
          · refine ⟨by simp, ?_⟩
            rw [h1 v, hdec]
            show some ((kd - 1) - (ds.count v : Int)) = some 0
            rw [hcds, hkdeq]
            norm_num
          · exact ⟨by simp [hv1], hv2⟩
        · rintro ⟨hv1, hv2⟩
          rcases List.mem_cons.1 hv1 with rfl | hv1
          · exact Or.inl rfl
          · exact Or.inr ⟨hv1, hv2⟩
    · -- d's count does not reach zero here
      rw [stepFold_cons, if_neg hzero]
      obtain ⟨h1, h2, newQ, hq, hqnd, hqmem⟩ := ih (decKey m d) acc hge2
      refine ⟨fun v => ?_, by rw [h2, decKey_keys], newQ, hq, hqnd, ?_⟩
      · rw [h1 v, alookup_decKey]
        by_cases hvd : v = d
        · subst hvd
          rw [if_pos rfl, hkd]
          show some ((kd - 1) - (ds.count v : Int)) = some (kd - ((v :: ds).count v : Int))
          rw [hcount_d]
          congr 1
          omega
        · rw [if_neg hvd, hcount_ne v hvd]
      · intro v
        rw [hqmem v]
        constructor
        · rintro ⟨hv1, hv2⟩
          exact ⟨by simp [hv1], hv2⟩
        · rintro ⟨hv1, hv2⟩
          rcases List.mem_cons.1 hv1 with rfl | hv1
          · by_cases hmem : v ∈ ds
            · exact ⟨hmem, hv2⟩
            · exfalso
              rw [h1 v, hdec] at hv2
              have hv3 : (kd - 1) - (ds.count v : Int) = 0 := Option.some.inj hv2
              have hc0 : (ds.count v : Int) = 0 := by
                simp [List.count_eq_zero.2 hmem]
              have hk0 : kd - 1 = 0 := by omega
              exact hzero (by rw [hdec, hk0])
          · exact ⟨hv1, hv2⟩

/-! ### The Kahn loop invariant -/

theorem filterMap_if_replicate (l : List String) (q : String) (a : String) :
    (l.filterMap (fun x => if x = q then some a else none)) =
      List.replicate (l.count q) a := by
  induction l with
  | nil => simp
  | cons x xs ih =>
    by_cases h : x = q
    · subst h
      simp [List.filterMap_cons, List.count_cons_self, ih, List.replicate_succ]
    · simp [List.filterMap_cons, h, ih, List.count_cons]

theorem count_dependentsOf (tasks : List PTask) (hnd : (taskIds tasks).Nodup)
    (t : PTask) (ht : t ∈ tasks) (q : String) :
    (dependentsOf tasks q).count t.id = t.deps.count q := by
  induction tasks with
  | nil => simp at ht
  | cons t' ts ih =>
    simp only [taskIds, List.map_cons, List.nodup_cons] at hnd
    rw [dependentsOf, List.flatMap_cons, List.count_append, filterMap_if_replicate]
    rcases List.mem_cons.1 ht with he | hm
    · subst he
      rw [List.count_replicate, if_pos (by simp)]
      have hz : (dependentsOf ts q).count t.id = 0 := by
        refine List.count_eq_zero.2 (fun hc => ?_)
        rw [dependentsOf, List.mem_flatMap] at hc
        obtain ⟨t₂, ht₂, hmem⟩ := hc
        rw [List.mem_filterMap] at hmem
        obtain ⟨x, _, hx⟩ := hmem
        by_cases hxq : x = q
        · rw [if_pos hxq] at hx
          injection hx with hx
          exact hnd.1 (hx ▸ List.mem_map_of_mem (·.id) ht₂)
        · rw [if_neg hxq] at hx
          exact Option.noConfusion hx
      rw [show dependentsOf ts q =
        ts.flatMap (fun t => t.deps.filterMap
          (fun x => if x = q then some t.id else none)) from rfl] at hz
      omega
    · have hne : t'.id ≠ t.id := by
        intro he
        exact hnd.1 (he ▸ List.mem_map_of_mem (·.id) hm)
      rw [List.count_replicate, if_neg (by simpa using hne)]
      have := ih hnd.2 hm
      rw [dependentsOf] at this
      omega

theorem mem_dependentsOf (tasks : List PTask) (v q : String)
    (hv : v ∈ dependentsOf tasks q) : ∃ t ∈ tasks, t.id = v ∧ q ∈ t.deps := by
  rw [dependentsOf, List.mem_flatMap] at hv
  obtain ⟨t, ht, hmem⟩ := hv
  rw [List.mem_filterMap] at hmem
  obtain ⟨x, hx, hxe⟩ := hmem
  by_cases hxq : x = q
  · rw [if_pos hxq] at hxe
    injection hxe with hxe
    exact ⟨t, ht, hxe, hxq ▸ hx⟩
  · rw [if_neg hxq] at hxe
    exact Option.noConfusion hxe

theorem filter_split_len (l sorted : List String) (q : String) (hq : ¬ q ∈ sorted) :
    (l.filter (fun d => decide (¬ d ∈ (sorted ++ [q])))).length + l.count q =
      (l.filter (fun d => decide (¬ d ∈ sorted))).length := by
  induction l with
  | nil => simp
  | cons x xs ih =>
    by_cases hxq : x = q
    · subst hxq
      rw [List.filter_cons_of_neg (by simp), List.filter_cons_of_pos (by simpa using hq),
        List.count_cons_self, List.length_cons]
      omega
    · rw [List.count_cons, if_neg (by simpa using fun he => hxq he)]
      by_cases hxs : x ∈ sorted
      · rw [List.filter_cons_of_neg (by simp [hxs]),
          List.filter_cons_of_neg (by simp [hxs])]
        omega
      · rw [List.filter_cons_of_pos (by simp [hxs, hxq]),
          List.filter_cons_of_pos (by simpa using hxs)]
        simp only [List.length_cons]
        omega

/-- The loop invariant of the embedded Kahn sort: in-degree entries count the
not-yet-sorted dependencies of each task, the queue holds exactly the
unsorted nodes whose dependencies are all sorted, and the sorted list places
every task after all of its dependencies. -/
structure KInv (tasks : List PTask) (queue : List String)
    (inDeg : List (String × Int)) (sorted : List String) : Prop where
  hkeys : inDeg.map Prod.fst = taskIds tasks
  hdeg : ∀ t ∈ tasks, alookup inDeg t.id =
    some (((t.deps.filter (fun d => decide (¬ d ∈ sorted))).length : Int))
  hqsub : ∀ v ∈ queue, v ∈ taskIds tasks
  hssub : ∀ v ∈ sorted, v ∈ taskIds tasks
  hqnd : queue.Nodup
  hsnd : sorted.Nodup
  hdisj : ∀ v ∈ queue, ¬ v ∈ sorted
  hqzero : ∀ t ∈ tasks, t.id ∈ queue →
    t.deps.filter (fun d => decide (¬ d ∈ sorted)) = []
  hready : ∀ t ∈ tasks, ¬ t.id ∈ sorted → ¬ t.id ∈ queue →
    t.deps.filter (fun d => decide (¬ d ∈ sorted)) ≠ []
  horder : ∀ t ∈ tasks, t.id ∈ sorted →
    ∀ d ∈ t.deps, d ∈ sorted ∧ pos sorted d < pos sorted t.id

theorem kahn_step_preserves (tasks : List PTask) (hnd : (taskIds tasks).Nodup)
    (q : String) (qs : List String) (inDeg : List (String × Int)) (sorted : List String)
    (inv : KInv tasks (q :: qs) inDeg sorted) :
    KInv tasks (qs ++ (kahnStep tasks inDeg q).2) (kahnStep tasks inDeg q).1
      (sorted ++ [q]) := by
  have hqmem : q ∈ q :: qs := by simp
  have hqns : ¬ q ∈ sorted := inv.hdisj q hqmem
  have hqnqs : ¬ q ∈ qs := (List.nodup_cons.1 inv.hqnd).1
  have hqsnd : qs.Nodup := (List.nodup_cons.1 inv.hqnd).2
  rw [kahnStep_eq_stepFold]
  set ds := dependentsOf tasks q with hds
  have hge : ∀ v ∈ ds, ∃ k, alookup inDeg v = some k ∧ (ds.count v : Int) ≤ k := by
    intro v hv
    obtain ⟨t, ht, htid, hqdep⟩ := mem_dependentsOf tasks v q hv
    subst htid
    refine ⟨_, inv.hdeg t ht, ?_⟩
    rw [hds, count_dependentsOf tasks hnd t ht q]
    have hsplit := filter_split_len t.deps sorted q hqns
    have : t.deps.count q ≤ (t.deps.filter (fun d => decide (¬ d ∈ sorted))).length := by
      omega
    exact_mod_cast this
  obtain ⟨h1, h2, newQ, hnq, hnqnd, hnqmem⟩ := stepFold_spec ds inDeg [] hge
  simp only [List.nil_append] at hnq
  rw [hnq]
  have hdeg' : ∀ t ∈ tasks, alookup (stepFold inDeg [] ds).1 t.id =
      some (((t.deps.filter (fun d => decide (¬ d ∈ (sorted ++ [q])))).length : Int)) := by
    intro t ht
    rw [h1, inv.hdeg t ht]
    show some (((t.deps.filter (fun d => decide (¬ d ∈ sorted))).length : Int) -
      (ds.count t.id : Int)) = _
    rw [hds, count_dependentsOf tasks hnd t ht q]
    have hsplit := filter_split_len t.deps sorted q hqns
    congr 1
    omega
  have hnewQ_ids : ∀ v ∈ newQ, ∃ t ∈ tasks, t.id = v ∧ q ∈ t.deps := by
    intro v hv
    exact mem_dependentsOf tasks v q ((hnqmem v).1 hv).1
  have hq_task_deps : ∀ t ∈ tasks, t.id = q →
      t.deps.filter (fun d => decide (¬ d ∈ sorted)) = [] :=
    fun t ht he => inv.hqzero t ht (he ▸ hqmem)
  have hold_queue_not_ds : ∀ v ∈ q :: qs, ¬ v ∈ ds := by
    intro v hv hvds
    obtain ⟨t, ht, htid, hqdep⟩ := mem_dependentsOf tasks v q hvds
    have hz := inv.hqzero t ht (htid ▸ hv)
    have hmf : q ∈ t.deps.filter (fun d => decide (¬ d ∈ sorted)) :=
      List.mem_filter.2 ⟨hqdep, by simpa using hqns⟩
    rw [hz] at hmf
    simp at hmf
  have hq_not_ds : ¬ q ∈ ds := hold_queue_not_ds q hqmem
  have hsorted_not_ds : ∀ v ∈ sorted, ¬ v ∈ ds := by
    intro v hv hvds
    obtain ⟨t, ht, htid, hqdep⟩ := mem_dependentsOf tasks v q hvds
    exact hqns (inv.horder t ht (htid ▸ hv) q hqdep).1
  have hnewQ_not_sorted : ∀ v ∈ newQ, ¬ v ∈ sorted :=
    fun v hv hvs => hsorted_not_ds v hvs ((hnqmem v).1 hv).1
  have hnewQ_ne_q : ∀ v ∈ newQ, v ≠ q :=
    fun v hv he => hq_not_ds (he ▸ ((hnqmem v).1 hv).1)
  have hnewQ_not_qs : ∀ v ∈ newQ, ¬ v ∈ qs :=
    fun v hv hvqs => hold_queue_not_ds v (by simp [hvqs]) ((hnqmem v).1 hv).1
  refine ⟨?_, hdeg', ?_, ?_, ?_, ?_, ?_, ?_, ?_, ?_⟩
  · rw [h2, inv.hkeys]
  · intro v hv
    rcases List.mem_append.1 hv with hv | hv
    · exact inv.hqsub v (by simp [hv])
    · obtain ⟨t, ht, htid, _⟩ := hnewQ_ids v hv
      exact htid ▸ List.mem_map_of_mem (·.id) ht
  · intro v hv
    rcases List.mem_append.1 hv with hv | hv
    · exact inv.hssub v hv
    · exact (List.mem_singleton.1 hv) ▸ inv.hqsub q hqmem
  · rw [List.nodup_append]
    exact ⟨hqsnd, hnqnd, fun v hv hv2 => hnewQ_not_qs v hv2 hv⟩
  · rw [List.nodup_append]
    refine ⟨inv.hsnd, List.nodup_singleton q, fun v hv hv2 => ?_⟩
    exact hqns ((List.mem_singleton.1 hv2) ▸ hv)
  · intro v hv hvs
    rcases List.mem_append.1 hvs with hvs | hvs
    · rcases List.mem_append.1 hv with hv | hv
      · exact inv.hdisj v (by simp [hv]) hvs
      · exact hnewQ_not_sorted v hv hvs
    · have heq : v = q := List.mem_singleton.1 hvs
      subst heq
      rcases List.mem_append.1 hv with hv | hv
      · exact hqnqs hv
      · exact hnewQ_ne_q v hv rfl
  · intro t ht hmem
    have hsplit := filter_split_len t.deps sorted q hqns
    rcases List.mem_append.1 hmem with hv | hv
    · have hz := inv.hqzero t ht (by simp [hv])
      have hlen : (t.deps.filter (fun d => decide (¬ d ∈ sorted))).length = 0 := by
        rw [hz]
        rfl
      exact List.length_eq_zero.1 (by omega)
    · have hfin := ((hnqmem t.id).1 hv).2
      rw [hdeg' t ht] at hfin
      have : ((t.deps.filter (fun d => decide (¬ d ∈ (sorted ++ [q])))).length : Int) = 0 :=
        Option.some.inj hfin
      exact List.length_eq_zero.1 (by exact_mod_cast this)
  · intro t ht hns hnq2
    have hns0 : ¬ t.id ∈ sorted := fun h => hns (by simp [h])
    have hneq : t.id ≠ q := fun h => hns (by simp [h])
    have hnqs : ¬ t.id ∈ qs := fun h => hnq2 (by simp [h])
    have hnnewQ : ¬ t.id ∈ newQ := fun h => hnq2 (by simp [h])
    have hold := inv.hready t ht hns0 (by
      intro hc
      rcases List.mem_cons.1 hc with he | hm
      · exact hneq he
      · exact hnqs hm)
    intro hcon
    have hsplit := filter_split_len t.deps sorted q hqns
    have hlen' : (t.deps.filter (fun d => decide (¬ d ∈ (sorted ++ [q])))).length = 0 := by
      rw [hcon]
      rfl
    have hlenpos : 1 ≤ (t.deps.filter (fun d => decide (¬ d ∈ sorted))).length := by
      rcases hl : t.deps.filter (fun d => decide (¬ d ∈ sorted)) with _ | ⟨a, l⟩
      · exact absurd hl hold
      · simp
    have hcq : 1 ≤ t.deps.count q := by omega
    have hmemds : t.id ∈ ds := by
      rw [hds]
      have : 1 ≤ (dependentsOf tasks q).count t.id := by
        rw [count_dependentsOf tasks hnd t ht q]
        exact hcq
      exact List.count_pos_iff_mem.1 this
    refine hnnewQ ((hnqmem t.id).2 ⟨hmemds, ?_⟩)
    rw [hdeg' t ht, hlen']
    rfl
  · intro t ht hmem d hd
    rcases List.mem_append.1 hmem with hv | hv
    · obtain ⟨hd1, hd2⟩ := inv.horder t ht hv d hd
      refine ⟨by simp [hd1], ?_⟩
      rw [pos_append_of_mem sorted [q] d hd1, pos_append_of_mem sorted [q] t.id hv]
      exact hd2
    · have heq : t.id = q := List.mem_singleton.1 hv
      have hz := hq_task_deps t ht heq
      have hdin : d ∈ sorted := by
        have := List.filter_eq_nil.1 hz d hd
        simpa using this
      refine ⟨by simp [hdin], ?_⟩
      rw [pos_append_of_mem sorted [q] d hdin, heq, pos_append_self sorted q hqns]
      exact pos_lt_length sorted d hdin

theorem kahnLoop_post (tasks : List PTask) (hnd : (taskIds tasks).Nodup) :
    ∀ (fuel : Nat) (queue : List String) (inDeg : List (String × Int))
      (sorted : List String),
    KInv tasks queue inDeg sorted →
    tasks.length + 1 ≤ fuel + sorted.length →
    ∃ sorted₂ inDeg₂, kahnLoop tasks fuel queue inDeg sorted = (sorted₂, []) ∧
      KInv tasks [] inDeg₂ sorted₂ := by
  intro fuel
  induction fuel with
  | zero =>
    intro queue inDeg sorted inv hfuel
    exfalso
    have hle : sorted.length ≤ tasks.length := by
      have h := nodup_length_le sorted (taskIds tasks) inv.hsnd inv.hssub
      simpa [taskIds] using h
    omega
  | succ f ih =>
    intro queue inDeg sorted inv hfuel
    cases queue with
    | nil => exact ⟨sorted, inDeg, rfl, inv⟩
    | cons q qs =>
      have inv2 := kahn_step_preserves tasks hnd q qs inDeg sorted inv
      have hfuel2 : tasks.length + 1 ≤ f + (sorted ++ [q]).length := by
        simp only [List.length_append, List.length_singleton]
        omega
      obtain ⟨s₂, d₂, heq, hinv⟩ := ih _ _ _ inv2 hfuel2
      exact ⟨s₂, d₂, heq, hinv⟩

theorem filterMap_if_fst_sublist (m : List (String × Int)) :
    List.Sublist (m.filterMap (fun kv => if kv.2 = 0 then some kv.1 else none))
      (m.map Prod.fst) := by
  induction m with
  | nil => simp
  | cons kv rest ih =>
    by_cases h : kv.2 = 0
    · simp only [List.filterMap_cons, if_pos h, List.map_cons]
      exact List.Sublist.cons₂ kv.1 ih
    · simp only [List.filterMap_cons, if_neg h, List.map_cons]
      exact List.Sublist.cons kv.1 ih

theorem kahnRun_spec (tasks : List PTask) (hnd : (taskIds tasks).Nodup) :
    ∃ sorted₂ inDeg₂, kahnRun tasks = (sorted₂, []) ∧ KInv tasks [] inDeg₂ sorted₂ := by
  have hkeys := initInDeg_keys tasks
  have hfilter_nil : ∀ l : List String,
      l.filter (fun d => decide (¬ d ∈ ([] : List String))) = l := by
    intro l
    induction l with
    | nil => rfl
    | cons x xs ihl => simp [List.filter_cons, ihl]
  have hinit : KInv tasks
      ((initInDeg tasks).filterMap (fun kv => if kv.2 = 0 then some kv.1 else none))
      (initInDeg tasks) [] := by
    refine ⟨hkeys, ?_, ?_, by simp, ?_, List.nodup_nil, by simp, ?_, ?_, by simp⟩
    · intro t ht
      rw [alookup_initInDeg tasks hnd t ht, hfilter_nil]
    · intro v hv
      rw [List.mem_filterMap] at hv
      obtain ⟨kv, hkv, hcond⟩ := hv
      by_cases h : kv.2 = 0
      · rw [if_pos h] at hcond
        injection hcond with hcond
        exact hkeys ▸ hcond ▸ List.mem_map_of_mem Prod.fst hkv
      · rw [if_neg h] at hcond
        exact Option.noConfusion hcond
    · exact (filterMap_if_fst_sublist (initInDeg tasks)).nodup (hkeys ▸ hnd)
    · intro t ht hq
      rw [List.mem_filterMap] at hq
      obtain ⟨kv, hkv, hcond⟩ := hq
      by_cases h : kv.2 = 0
      · rw [if_pos h] at hcond
        injection hcond with hcond
        have hl : alookup (initInDeg tasks) kv.1 = some kv.2 :=
          mem_alookup_of_nodup _ (hkeys ▸ hnd) kv.1 kv.2 hkv
        rw [hcond, alookup_initInDeg tasks hnd t ht] at hl
        have : (t.deps.length : Int) = kv.2 := Option.some.inj hl
        rw [h] at this
        have hdeps : t.deps = [] := List.length_eq_zero.1 (by exact_mod_cast this)
        rw [hfilter_nil, hdeps]
      · rw [if_neg h] at hcond
        exact Option.noConfusion hcond
    · intro t ht _ hq hcon
      rw [hfilter_nil] at hcon
      have hz : alookup (initInDeg tasks) t.id = some 0 := by
        rw [alookup_initInDeg tasks hnd t ht, hcon]
        rfl
      have hmem : (t.id, (0 : Int)) ∈ initInDeg tasks := alookup_mem _ _ _ hz
      exact hq (List.mem_filterMap.2 ⟨(t.id, 0), hmem, by simp⟩)
  obtain ⟨s₂, d₂, heq, hinv⟩ :=
    kahnLoop_post tasks hnd (tasks.length + 1) _ _ [] hinit (by simp)
  exact ⟨s₂, d₂, heq, hinv⟩

/-! ### From a stuck frontier to a cycle, and from an order to acyclicity -/

theorem cycle_of_succ (R : List String) (r : String → String → Prop)
    (hne : R ≠ []) (hsucc : ∀ v ∈ R, ∃ u ∈ R, r v u) :
    ∃ x, Relation.TransGen r x x := by
  choose! f hf1 hf2 using fun v (hv : v ∈ R) => hsucc v hv
  obtain ⟨v₀, hv₀⟩ : ∃ v, v ∈ R := by
    cases R with
    | nil => exact absurd rfl hne
    | cons a l => exact ⟨a, by simp⟩
  set c : ℕ → String := fun n => f^[n] v₀ with hc
  have hcR : ∀ n, c n ∈ R := by
    intro n
    induction n with
    | zero => exact hv₀
    | succ k ih =>
      rw [hc]
      simp only [Function.iterate_succ_apply']
      exact hf1 _ ih
  have hcr : ∀ n, r (c n) (c (n + 1)) := by
    intro n
    have : c (n + 1) = f (c n) := by
      rw [hc]
      simp [Function.iterate_succ_apply']
    rw [this]
    exact hf2 _ (hcR n)
  have hchain : ∀ i j, i < j → Relation.TransGen r (c i) (c j) := by
    intro i j hij
    induction j with
    | zero => omega
    | succ k ih =>
      rcases Nat.lt_succ_iff_lt_or_eq.1 hij with hlt | heq
      · exact (ih hlt).tail (hcr k)
      · rw [heq]
        exact Relation.TransGen.single (hcr k)
  have hmaps : ∀ n ∈ Finset.range (R.length + 1), c n ∈ R.toFinset :=
    fun n _ => List.mem_toFinset.2 (hcR n)
  have hcard : R.toFinset.card < (Finset.range (R.length + 1)).card := by
    rw [Finset.card_range]
    exact Nat.lt_succ_of_le (List.toFinset_card_le R)
  obtain ⟨i, hi, j, hj, hij, hcij⟩ :=
    Finset.exists_ne_map_eq_of_card_lt_of_maps_to hcard hmaps
  rcases Nat.lt_or_ge i j with hlt | hge
  · exact ⟨c i, hcij ▸ hchain i j hlt⟩
  · have hlt : j < i := by omega
    exact ⟨c j, hcij ▸ hchain j i hlt⟩

theorem noCycle_of_rank (tasks : List PTask) (f : String → Nat)
    (h : ∀ t ∈ tasks, ∀ d ∈ t.deps, f d < f t.id) : ¬ CycleExists tasks := by
  rintro ⟨x, hx⟩
  have hdesc : ∀ a b, Relation.TransGen (dependsOn tasks) a b → f b < f a := by
    intro a b hab
    induction hab with
    | single hstep =>
      obtain ⟨t, ht, htid, hdep⟩ := hstep
      exact htid ▸ h t ht _ hdep
    | tail _ hstep ih =>
      obtain ⟨t, ht, htid, hdep⟩ := hstep
      exact lt_trans (htid ▸ h t ht _ hdep) ih
  exact lt_irrefl _ (hdesc x x hx)

theorem all_mem_of_nodup_subset_length_eq (l L : List String) (hl : l.Nodup)
    (hL : L.Nodup) (hsub : ∀ v ∈ l, v ∈ L) (hlen : l.length = L.length) :
    ∀ v ∈ L, v ∈ l := by
  have hfsub : l.toFinset ⊆ L.toFinset :=
    fun x hx => List.mem_toFinset.2 (hsub x (List.mem_toFinset.1 hx))
  have hcard : L.toFinset.card ≤ l.toFinset.card := by
    rw [List.toFinset_card_of_nodup hl, List.toFinset_card_of_nodup hL]
    omega
  have : l.toFinset = L.toFinset := Finset.eq_of_subset_of_card_le hfsub hcard
  intro v hv
  exact List.mem_toFinset.1 (this ▸ List.mem_toFinset.2 hv)

/-- On a plan with unique ids, resolvable dependencies, and no dependency
cycle, the Kahn run schedules every task. -/
theorem kahn_complete (tasks : List PTask) (hnd : (taskIds tasks).Nodup)
    (hwf : ∀ t ∈ tasks, ∀ d ∈ t.deps, d ∈ taskIds tasks)
    (hnc : ¬ CycleExists tasks) : (kahnRun tasks).1.length = tasks.length := by
  obtain ⟨s₂, d₂, heq, hinv⟩ := kahnRun_spec tasks hnd
  rw [heq]
  show s₂.length = tasks.length
  by_contra hne
  have hle : s₂.length ≤ tasks.length := by
    have h := nodup_length_le s₂ (taskIds tasks) hinv.hsnd hinv.hssub
    simpa [taskIds] using h
  set R := (taskIds tasks).filter (fun v => decide (¬ v ∈ s₂)) with hr
  have hRne : R ≠ [] := by
    intro hempty
    have hall : ∀ v ∈ taskIds tasks, v ∈ s₂ := by
      intro v hv
      by_contra hvn
      have : v ∈ R := List.mem_filter.2 ⟨hv, by simpa using hvn⟩
      rw [hempty] at this
      simp at this
    have : tasks.length ≤ s₂.length := by
      have h := nodup_length_le (taskIds tasks) s₂ hnd hall
      simpa [taskIds] using h
    omega
  have hsucc : ∀ v ∈ R, ∃ u ∈ R, dependsOn tasks v u := by
    intro v hv
    obtain ⟨hvid, hvs⟩ := List.mem_filter.1 hv
    have hvns : ¬ v ∈ s₂ := by simpa using hvs
    obtain ⟨t, ht, htid⟩ : ∃ t ∈ tasks, t.id = v := by
      simpa [taskIds] using hvid
    subst htid
    have hready := hinv.hready t ht hvns (by simp)
    obtain ⟨d, hd⟩ : ∃ d, d ∈ t.deps.filter (fun x => decide (¬ x ∈ s₂)) := by
      rcases hl : t.deps.filter (fun x => decide (¬ x ∈ s₂)) with _ | ⟨a, l⟩
      · exact absurd hl hready
      · exact ⟨a, by simp [hl]⟩
    obtain ⟨hddep, hdns⟩ := List.mem_filter.1 hd
    refine ⟨d, List.mem_filter.2 ⟨hwf t ht d hddep, hdns⟩, t, ht, rfl, hddep⟩
  obtain ⟨x, hx⟩ := cycle_of_succ R (dependsOn tasks) hRne hsucc
  exact hnc ⟨x, hx⟩

/-- Whenever the Kahn run schedules every task, the resulting order places
every task strictly after each of its dependencies. -/
theorem kahn_sound (tasks : List PTask) (hnd : (taskIds tasks).Nodup)
    (hlen : (kahnRun tasks).1.length = tasks.length) :
    (∀ t ∈ tasks, t.id ∈ (kahnRun tasks).1) ∧
    (∀ t ∈ tasks, ∀ d ∈ t.deps,
      pos (kahnRun tasks).1 d < pos (kahnRun tasks).1 t.id) := by
  obtain ⟨s₂, d₂, heq, hinv⟩ := kahnRun_spec tasks hnd
  rw [heq] at hlen ⊢
  have hall : ∀ v ∈ taskIds tasks, v ∈ s₂ := by
    refine all_mem_of_nodup_subset_length_eq s₂ (taskIds tasks) hinv.hsnd hnd hinv.hssub ?_
    simpa [taskIds] using hlen
  refine ⟨fun t ht => hall t.id (List.mem_map_of_mem (·.id) ht), fun t ht d hd => ?_⟩
  exact (hinv.horder t ht (hall t.id (List.mem_map_of_mem (·.id) ht)) d hd).2

/-- A dependency cycle leaves at least one task unscheduled. -/
theorem kahn_incomplete_of_cycle (tasks : List PTask) (hnd : (taskIds tasks).Nodup)
    (hc : CycleExists tasks) : (kahnRun tasks).1.length ≠ tasks.length := by
  intro hlen
  obtain ⟨s₂, d₂, heq, hinv⟩ := kahnRun_spec tasks hnd
  rw [heq] at hlen
  have hall : ∀ v ∈ taskIds tasks, v ∈ s₂ := by
    refine all_mem_of_nodup_subset_length_eq s₂ (taskIds tasks) hinv.hsnd hnd hinv.hssub ?_
    simpa [taskIds] using hlen
  obtain ⟨x, hx⟩ := hc
  have hdesc : ∀ a b, Relation.TransGen (dependsOn tasks) a b →
      pos s₂ b < pos s₂ a := by
    intro a b hab
    induction hab with
    | single hstep =>
      obtain ⟨t, ht, htid, hdep⟩ := hstep
      exact htid ▸ (hinv.horder t ht
        (hall t.id (List.mem_map_of_mem (·.id) ht)) _ hdep).2
    | tail _ hstep ih =>
      obtain ⟨t, ht, htid, hdep⟩ := hstep
      exact lt_trans (htid ▸ (hinv.horder t ht
        (hall t.id (List.mem_map_of_mem (·.id) ht)) _ hdep).2) ih
  exact lt_irrefl _ (hdesc x x hx)

/-- A dangling dependency keeps its task unscheduled and the schedule short. -/
theorem kahn_dangling (tasks : List PTask) (hnd : (taskIds tasks).Nodup)
    (t : PTask) (ht : t ∈ tasks) (d : String) (hd : d ∈ t.deps)
    (hdang : ¬ d ∈ taskIds tasks) :
    ¬ t.id ∈ (kahnRun tasks).1 ∧ (kahnRun tasks).1.length < tasks.length := by
  obtain ⟨s₂, d₂, heq, hinv⟩ := kahnRun_spec tasks hnd
  rw [heq]
  have hnmem : ¬ t.id ∈ s₂ := by
    intro hmem
    exact hdang (hinv.hssub d (hinv.horder t ht hmem d hd).1)
  refine ⟨hnmem, ?_⟩
  show s₂.length < tasks.length
  have hsub : ∀ v ∈ s₂, v ∈ (taskIds tasks).erase t.id := by
    intro v hv
    have hne2 : v ≠ t.id := fun he => hnmem (he ▸ hv)
    exact (List.mem_erase_of_ne hne2).2 (hinv.hssub v hv)
  have hle := nodup_length_le s₂ ((taskIds tasks).erase t.id) hinv.hsnd hsub
  have hidmem : t.id ∈ taskIds tasks := by
    simpa [taskIds] using List.mem_map_of_mem (·.id) ht
  have herase : ((taskIds tasks).erase t.id).length = (taskIds tasks).length - 1 :=
    List.length_erase_of_mem hidmem
  have hlen : (taskIds tasks).length = tasks.length := by simp [taskIds]
  have hpos : 1 ≤ (taskIds tasks).length := by
    have : t.id ∈ taskIds tasks := hidmem
    cases hc : taskIds tasks with
    | nil => rw [hc] at this; simp at this
    | cons a l => simp [hc]
  omega

/-- C1: on a duplicate-free plan, if every dependency resolves and the
dependency relation is acyclic, the topological sort returns an order that
schedules every task and places each task strictly after every task it
depends on; if the relation has a cycle, ordering fails with the
circular-dependency error and sequential execution aborts with no task
executed, an empty context, and an empty result list. -/
theorem topological_execution_order (tasks : List PTask)
    (hnd : (taskIds tasks).Nodup) :
    ((∀ t ∈ tasks, ∀ d ∈ t.deps, d ∈ taskIds tasks) → ¬ CycleExists tasks →
      ∃ order, topologicalSort tasks = .ok order ∧
        (∀ t ∈ tasks, t.id ∈ order) ∧
        (∀ t ∈ tasks, ∀ d ∈ t.deps, pos order d < pos order t.id)) ∧
    (CycleExists tasks →
      topologicalSort tasks = .error circularMsg ∧
      ∀ exec, executeSequential exec tasks = (.error circularMsg, [], [])) := by
  constructor
  · intro hwf hnc
    have hlen := kahn_complete tasks hnd hwf hnc
    obtain ⟨hmem, hord⟩ := kahn_sound tasks hnd hlen
    exact ⟨(kahnRun tasks).1, by simp [topologicalSort, hlen], hmem, hord⟩
  · intro hc
    have hne := kahn_incomplete_of_cycle tasks hnd hc
    have hts : topologicalSort tasks = .error circularMsg := by
      simp [topologicalSort, hne]
    exact ⟨hts, fun exec => by simp [executeSequential, hts]⟩

/-- The worked three-task chain A, B depends on A, C depends on B. -/
def abcTasks : List PTask :=
  [⟨"A", "gmail", "read", [], [], []⟩,
   ⟨"B", "gmail", "read", ["A"], [], []⟩,
   ⟨"C", "gmail", "read", ["B"], [], []⟩]

/-- The worked two-task cycle A depends on B, B depends on A. -/
def cycTasks : List PTask :=
  [⟨"A", "gmail", "read", ["B"], [], []⟩,
   ⟨"B", "gmail", "read", ["A"], [], []⟩]

/-- Witness for C1 at the two worked examples of the specification. -/
theorem topological_execution_order_witness :
    ((taskIds abcTasks).Nodup ∧
      (∀ t ∈ abcTasks, ∀ d ∈ t.deps, d ∈ taskIds abcTasks) ∧
      ¬ CycleExists abcTasks) ∧
    (∃ order, topologicalSort abcTasks = .ok order ∧
      (∀ t ∈ abcTasks, t.id ∈ order) ∧
      (∀ t ∈ abcTasks, ∀ d ∈ t.deps, pos order d < pos order t.id)) ∧
    ((taskIds cycTasks).Nodup ∧ CycleExists cycTasks) ∧
    (topologicalSort cycTasks = .error circularMsg ∧
      ∀ exec, executeSequential exec cycTasks = (.error circularMsg, [], [])) := by
  have hnc : ¬ CycleExists abcTasks :=
    noCycle_of_rank abcTasks
      (fun s => if s = "A" then 0 else if s = "B" then 1 else 2) (by decide)
  have hstep1 : dependsOn cycTasks "A" "B" :=
    ⟨⟨"A", "gmail", "read", ["B"], [], []⟩, by simp [cycTasks], rfl, by simp⟩
  have hstep2 : dependsOn cycTasks "B" "A" :=
    ⟨⟨"B", "gmail", "read", ["A"], [], []⟩, by simp [cycTasks], rfl, by simp⟩
  have hcyc : CycleExists cycTasks :=
    ⟨"A", Relation.TransGen.head hstep1 (Relation.TransGen.single hstep2)⟩
  refine ⟨⟨by decide, by decide, hnc⟩, ?_, ⟨by decide, hcyc⟩, ?_⟩
  · exact (topological_execution_order abcTasks (by decide)).1 (by decide) hnc
  · exact (topological_execution_order cycTasks (by decide)).2 hcyc

/-- C10: a dependency id naming no task of the plan contributes an edge that
is never released: the dependent task is never scheduled, the sorted list
stays shorter than the node count, ordering raises the very same
circular-dependency error used for cycles, and sequential execution aborts
having executed nothing. -/
theorem dangling_dependency_abort (tasks : List PTask)
    (hnd : (taskIds tasks).Nodup) (t : PTask) (ht : t ∈ tasks) (d : String)
    (hd : d ∈ t.deps) (hdang : ¬ d ∈ taskIds tasks) :
    ¬ t.id ∈ (kahnRun tasks).1 ∧
    (kahnRun tasks).1.length < tasks.length ∧
    topologicalSort tasks = .error circularMsg ∧
    ∀ exec, executeSequential exec tasks = (.error circularMsg, [], []) := by
  obtain ⟨h1, h2⟩ := kahn_dangling tasks hnd t ht d hd hdang
  have hts : topologicalSort tasks = .error circularMsg := by
    simp [topologicalSort, Nat.ne_of_lt h2]
  exact ⟨h1, h2, hts, fun exec => by simp [executeSequential, hts]⟩

/-- A two-task plan whose second task names a nonexistent dependency. -/
def dangTasks : List PTask :=
  [⟨"A", "gmail", "read", [], [], []⟩,
   ⟨"B", "gmail", "read", ["X"], [], []⟩]

/-- Witness for C10 at a concrete dangling-dependency plan. -/
theorem dangling_dependency_abort_witness :
    ((taskIds dangTasks).Nodup ∧
      (⟨"B", "gmail", "read", ["X"], [], []⟩ : PTask) ∈ dangTasks ∧
      "X" ∈ (⟨"B", "gmail", "read", ["X"], [], []⟩ : PTask).deps ∧
      ¬ "X" ∈ taskIds dangTasks) ∧
    (¬ "B" ∈ (kahnRun dangTasks).1 ∧
      (kahnRun dangTasks).1.length < dangTasks.length ∧
      topologicalSort dangTasks = .error circularMsg ∧
      ∀ exec, executeSequential exec dangTasks = (.error circularMsg, [], [])) := by
  refine ⟨⟨by decide, by simp [dangTasks], by simp, by decide⟩, ?_⟩
  exact dangling_dependency_abort dangTasks (by decide)
    ⟨"B", "gmail", "read", ["X"], [], []⟩ (by simp [dangTasks]) "X" (by simp) (by decide)

theorem runOrder_append (exec : PTask → PyVal) (tasks : List PTask) (s : SeqState)
    (l₁ l₂ : List String) :
    runOrder exec tasks s (l₁ ++ l₂) = runOrder exec tasks (runOrder exec tasks s l₁) l₂ :=
  List.foldl_append _ _ l₁ l₂

theorem seqStep_invoked_mem (exec : PTask → PyVal) (tasks : List PTask)
    (s : SeqState) (tid v : String)
    (hv : v ∈ (seqStep exec tasks s tid).invoked) : v ∈ s.invoked ∨ v = tid := by
  rcases hfind : findTask tasks tid with _ | task
  · simp only [seqStep, hfind] at hv
    exact Or.inl hv
  · simp only [seqStep, hfind] at hv
    by_cases hemp : (task.deps.filter (fun d => isFailedDep s.ctx d)).isEmpty = true
    · simp only [if_pos hemp] at hv
      simp only [List.mem_append, List.mem_singleton] at hv
      exact hv
    · simp only [if_neg hemp] at hv
      exact Or.inl hv

theorem seqStep_ctx_other (exec : PTask → PyVal) (tasks : List PTask)
    (s : SeqState) (tid tid2 : String) (hne : tid ≠ tid2) :
    alookup (seqStep exec tasks s tid).ctx tid2 = alookup s.ctx tid2 := by
  rcases hfind : findTask tasks tid with _ | task
  · simp only [seqStep, hfind]
  · simp only [seqStep, hfind]
    by_cases hemp : (task.deps.filter (fun d => isFailedDep s.ctx d)).isEmpty = true
    · simp only [if_pos hemp]
      simp [alookup, hne]
    · simp only [if_neg hemp]
      simp [alookup, hne]

theorem runOrder_invoked_mem (exec : PTask → PyVal) (tasks : List PTask) :
    ∀ (order : List String) (s : SeqState) (v : String),
    v ∈ (runOrder exec tasks s order).invoked → v ∈ s.invoked ∨ v ∈ order := by
  intro order
  induction order with
  | nil => exact fun s v hv => Or.inl hv
  | cons tid rest ih =>
    intro s v hv
    rcases ih (seqStep exec tasks s tid) v hv with hv1 | hv1
    · rcases seqStep_invoked_mem exec tasks s tid v hv1 with h | h
      · exact Or.inl h
      · exact Or.inr (by simp [h])
    · exact Or.inr (by simp [hv1])

theorem runOrder_ctx_preserved (exec : PTask → PyVal) (tasks : List PTask) :
    ∀ (order : List String) (s : SeqState) (tid : String), ¬ tid ∈ order →
    alookup (runOrder exec tasks s order).ctx tid = alookup s.ctx tid := by
  intro order
  induction order with
  | nil => exact fun s tid _ => rfl
  | cons x rest ih =>
    intro s tid htid
    have hx : x ≠ tid := fun he => htid (by simp [he])
    have hrest : ¬ tid ∈ rest := fun hm => htid (by simp [hm])
    have hstep : runOrder exec tasks s (x :: rest) =
      runOrder exec tasks (seqStep exec tasks s x) rest := rfl
    rw [hstep, ih _ _ hrest, seqStep_ctx_other exec tasks s x tid hx]

/-- C2: in a sequential run, when a scheduled task's turn arrives with some
dependency whose stored result is absent or not a success, its agent is
never invoked: the engine immediately stores an error result whose error
block carries the DependencyError kind (the code's label for the
DependencyFailed taxonomy entry) and a message naming the failed dependency
ids, and the run proceeds with the remaining tasks instead of aborting. -/
theorem dependency_failure_skip (exec : PTask → PyVal) (tasks : List PTask)
    (pre post : List String) (t : PTask)
    (hfind : findTask tasks t.id = some t)
    (horder : topologicalSort tasks = .ok (pre ++ t.id :: post))
    (hnd : (pre ++ t.id :: post).Nodup)
    (hfail : t.deps.filter
      (fun d => isFailedDep (runOrder exec tasks ⟨[], [], []⟩ pre).ctx d) ≠ []) :
    runOrder exec tasks ⟨[], [], []⟩ (pre ++ t.id :: post) =
      runOrder exec tasks
        ⟨(t.id, depErrorResult ("Cannot execute " ++ t.id ++ ": dependency " ++
            joinSep ", " (t.deps.filter (fun d =>
              isFailedDep (runOrder exec tasks ⟨[], [], []⟩ pre).ctx d)) ++ " failed"))
            :: (runOrder exec tasks ⟨[], [], []⟩ pre).ctx,
          (runOrder exec tasks ⟨[], [], []⟩ pre).results ++
            [depErrorResult ("Cannot execute " ++ t.id ++ ": dependency " ++
              joinSep ", " (t.deps.filter (fun d =>
                isFailedDep (runOrder exec tasks ⟨[], [], []⟩ pre).ctx d)) ++ " failed")],
          (runOrder exec tasks ⟨[], [], []⟩ pre).invoked⟩ post ∧
    alookup (runOrder exec tasks ⟨[], [], []⟩ (pre ++ t.id :: post)).ctx t.id =
      some (depErrorResult ("Cannot execute " ++ t.id ++ ": dependency " ++
        joinSep ", " (t.deps.filter (fun d =>
          isFailedDep (runOrder exec tasks ⟨[], [], []⟩ pre).ctx d)) ++ " failed")) ∧
    ¬ t.id ∈ (runOrder exec tasks ⟨[], [], []⟩ (pre ++ t.id :: post)).invoked ∧
    executeSequential exec tasks =
      (.ok (runOrder exec tasks ⟨[], [], []⟩ (pre ++ t.id :: post)).results,
        (runOrder exec tasks ⟨[], [], []⟩ (pre ++ t.id :: post)).ctx,
        (runOrder exec tasks ⟨[], [], []⟩ (pre ++ t.id :: post)).invoked) ∧
    (∀ msg, pyGet (depErrorResult msg) "status" = some (.vstr "error") ∧
      pyGet (depErrorResult msg) "error" =
        some (.vdict [("type", .vstr "DependencyError"), ("message", .vstr msg)])) := by
  have hpre_nd := hnd
  rw [List.nodup_append] at hpre_nd
  obtain ⟨hpnd, hcnd, hdisj⟩ := hpre_nd
  have htid_pre : ¬ t.id ∈ pre := fun hm => hdisj hm (by simp)
  have htid_post : ¬ t.id ∈ post := (List.nodup_cons.1 hcnd).1
  have hemp : (t.deps.filter
      (fun d => isFailedDep (runOrder exec tasks ⟨[], [], []⟩ pre).ctx d)).isEmpty
      = false := by
    rcases hl : t.deps.filter
      (fun d => isFailedDep (runOrder exec tasks ⟨[], [], []⟩ pre).ctx d) with _ | ⟨a, l⟩
    · exact absurd hl hfail
    · rfl
  have hstep : runOrder exec tasks ⟨[], [], []⟩ (pre ++ t.id :: post) =
      runOrder exec tasks
        ⟨(t.id, depErrorResult ("Cannot execute " ++ t.id ++ ": dependency " ++
            joinSep ", " (t.deps.filter (fun d =>
              isFailedDep (runOrder exec tasks ⟨[], [], []⟩ pre).ctx d)) ++ " failed"))
            :: (runOrder exec tasks ⟨[], [], []⟩ pre).ctx,
          (runOrder exec tasks ⟨[], [], []⟩ pre).results ++
            [depErrorResult ("Cannot execute " ++ t.id ++ ": dependency " ++
              joinSep ", " (t.deps.filter (fun d =>
                isFailedDep (runOrder exec tasks ⟨[], [], []⟩ pre).ctx d)) ++ " failed")],
          (runOrder exec tasks ⟨[], [], []⟩ pre).invoked⟩ post := by
    rw [runOrder_append]
    show runOrder exec tasks
      (seqStep exec tasks (runOrder exec tasks ⟨[], [], []⟩ pre) t.id) post = _
    simp only [seqStep, hfind, hemp, Bool.false_eq_true, if_false]
  refine ⟨hstep, ?_, ?_, by simp [executeSequential, horder], fun msg => ⟨rfl, rfl⟩⟩
  · rw [hstep, runOrder_ctx_preserved exec tasks post _ t.id htid_post]
    simp [alookup]
  · intro hmem
    rw [hstep] at hmem
    rcases runOrder_invoked_mem exec tasks post _ t.id hmem with hv | hv
    · rcases runOrder_invoked_mem exec tasks pre ⟨[], [], []⟩ t.id hv with hv2 | hv2
      · simp at hv2
      · exact htid_pre hv2
    · exact htid_post hv

/-- A two-task plan whose first task is forced to fail. -/
def failTasks : List PTask :=
  [⟨"A", "gmail", "send", [], [], []⟩,
   ⟨"B", "gmail", "send", ["A"], [], []⟩]

/-- An executor that fails task A and succeeds elsewhere. -/
def failExec : PTask → PyVal :=
  fun t =>
    if t.id = "A" then
      .vdict [("status", .vstr "error"),
        ("error", .vdict [("type", .vstr "RuntimeError"),
          ("message", .vstr "forced failure")])]
    else .vdict [("status", .vstr "success")]

/-- Witness for C2: task A fails, so task B is recorded as a DependencyError
without its agent ever being invoked. -/
theorem dependency_failure_skip_witness :
    ((⟨"B", "gmail", "send", ["A"], [], []⟩ : PTask).deps.filter
        (fun d => isFailedDep (runOrder failExec failTasks ⟨[], [], []⟩ ["A"]).ctx d) ≠ [] ∧
      topologicalSort failTasks = .ok (["A"] ++ "B" :: []) ∧
      (["A"] ++ "B" :: []).Nodup) ∧
    (alookup (runOrder failExec failTasks ⟨[], [], []⟩ (["A"] ++ "B" :: [])).ctx "B" =
      some (depErrorResult ("Cannot execute " ++ "B" ++ ": dependency " ++
        joinSep ", " ((⟨"B", "gmail", "send", ["A"], [], []⟩ : PTask).deps.filter
          (fun d => isFailedDep (runOrder failExec failTasks ⟨[], [], []⟩ ["A"]).ctx d))
        ++ " failed")) ∧
      ¬ "B" ∈ (runOrder failExec failTasks ⟨[], [], []⟩ (["A"] ++ "B" :: [])).invoked) := by
  have h := dependency_failure_skip failExec failTasks ["A"] []
    ⟨"B", "gmail", "send", ["A"], [], []⟩ rfl rfl (by decide) (by decide)
  exact ⟨⟨by decide, rfl, by decide⟩, h.2.1, h.2.2.1⟩

/-! ## Intent parser plan validation (src/core/intent_parser.py)

The _check_circular_dependencies visit function carries a visited set and a
current-path set; both are embedded as lists (membership only). The
recursion is fuel-driven; the fuel bound chosen by checkCircular dominates
the recursion depth, which never exceeds the number of distinct ids. -/

mutual

/-- The visit function of _check_circular_dependencies: a node on the
current path signals a cycle, a visited node is skipped, otherwise the node
is marked and its task's dependencies are explored with the node pushed on
the path. -/
def visitT (tasks : List PTask) (fuel : Nat) (visited path : List String)
    (tid : String) : Bool × List String :=
  match fuel with
  | 0 => (false, visited)
  | fuel + 1 =>
    if tid ∈ path then (true, visited)
    else if tid ∈ visited then (false, visited)
    else
      match findTask tasks tid with
      | none => (false, tid :: visited)
      | some t => visitList tasks fuel (tid :: visited) (tid :: path) t.deps

/-- Sequential exploration of a dependency list, threading the visited set
and stopping at the first detected cycle. -/
def visitList (tasks : List PTask) (fuel : Nat) (visited path : List String) :
    List String → Bool × List String
  | [] => (false, visited)
  | d :: ds =>
    let r := visitT tasks fuel visited path d
    if r.1 then (true, r.2) else visitList tasks fuel r.2 path ds

end

/-- Fuel bound dominating the number of distinct ids in the plan. -/
def sizeBound (tasks : List PTask) : Nat :=
  1 + tasks.length + (tasks.map (fun t => t.deps.length)).sum

/-- IntentParser._check_circular_dependencies for one task: fresh visited
and path sets, then visit from the task id. -/
def checkCircular (tasks : List PTask) (t : PTask) : Bool :=
  (visitT tasks (sizeBound tasks) [] [] t.id).1

/-- Registry gate of _validate_task: known agent type and declared mode. -/
def agentModeOk (t : PTask) : Bool :=
  match getAgentConfig t.agentType with
  | .error _ => false
  | .ok modes => t.mode ∈ modes.map Prod.fst

/-- IntentParser._validate_task: agent type, mode, dependency resolution in
declaration order, then the cycle check. The available-alternatives listings
of the original messages are elided. -/
def validateTask (tasks : List PTask) (t : PTask) : Except String Unit :=
  match getAgentConfig t.agentType with
  | .error _ =>
    .error ("Task " ++ t.id ++ ": Unknown agent_type \x27" ++ t.agentType ++ "\x27")
  | .ok modes =>
    if ¬ t.mode ∈ modes.map Prod.fst then
      .error ("Task " ++ t.id ++ ": Invalid mode \x27" ++ t.mode ++
        "\x27 for agent \x27" ++ t.agentType ++ "\x27")
    else
      match t.deps.find? (fun d => decide (¬ d ∈ taskIds tasks)) with
      | some dep =>
        .error ("Task " ++ t.id ++ ": Dependency \x27" ++ dep ++
          "\x27 not found in task list")
      | none =>
        if checkCircular tasks t then
          .error ("Circular dependency detected involving task " ++ t.id)
        else .ok ()

/-- IntentParser._validate_execution_plan: validate each task in order,
stopping at the first failure. -/
def validateTasks (tasks : List PTask) : List PTask → Except String Unit
  | [] => .ok ()
  | t :: ts =>
    match validateTask tasks t with
    | .error e => .error e
    | .ok _ => validateTasks tasks ts

/-- Plan validation over all tasks of the plan. -/
def validatePlan (tasks : List PTask) : Except String Unit :=
  validateTasks tasks tasks

theorem findTask_some (tasks : List PTask) (tid : String) (t : PTask)
    (h : findTask tasks tid = some t) : t ∈ tasks ∧ t.id = tid := by
  refine ⟨List.mem_of_find?_eq_some h, ?_⟩
  have := List.find?_some h
  simpa using this

theorem findTask_none (tasks : List PTask) (tid : String)
    (h : findTask tasks tid = none) : ∀ t ∈ tasks, t.id ≠ tid := by
  intro t ht
  have := List.find?_eq_none.1 h t ht
  simpa using this

/-- The chain condition carried down the DFS: each path entry depends on its
successor, ending at the node currently being visited. -/
def PathOK (tasks : List PTask) : List String → String → Prop
  | [], _ => True
  | p :: ps, x => dependsOn tasks p x ∧ PathOK tasks ps p

theorem pathOK_reach (tasks : List PTask) :
    ∀ (path : List String) (x : String), PathOK tasks path x →
    ∀ p ∈ path, Relation.TransGen (dependsOn tasks) p x := by
  intro path
  induction path with
  | nil => intro x _ p hp; simp at hp
  | cons q qs ih =>
    intro x hok p hp
    obtain ⟨hq, hrest⟩ := hok
    rcases List.mem_cons.1 hp with rfl | hp
    · exact Relation.TransGen.single hq
    · exact (ih q hrest p hp).tail hq

theorem visit_sound (tasks : List PTask) :
    ∀ fuel : Nat,
    (∀ visited path tid, PathOK tasks path tid →
      (visitT tasks fuel visited path tid).1 = true → CycleExists tasks) ∧
    (∀ visited path ds, (∀ d ∈ ds, PathOK tasks path d) →
      (visitList tasks fuel visited path ds).1 = true → CycleExists tasks) := by
  intro fuel
  induction fuel with
  | zero =>
    constructor
    · intro visited path tid _ hres
      simp [visitT] at hres
    · intro visited path ds hok hres
      induction ds generalizing visited with
      | nil => simp [visitList] at hres
      | cons d ds ihd =>
        rw [visitList] at hres
        by_cases hr : (visitT tasks 0 visited path d).1 = true
        · simp [visitT] at hr
        · rw [if_neg (by simpa using hr)] at hres
          exact ihd _ (fun d2 hd2 => hok d2 (by simp [hd2])) hres
  | succ f ih =>
    have hlist : ∀ visited path ds, (∀ d ∈ ds, PathOK tasks path d) →
        (visitList tasks f visited path ds).1 = true → CycleExists tasks := by
      intro visited path ds
      induction ds generalizing visited with
      | nil => intro _ hres; simp [visitList] at hres
      | cons d ds ihd =>
        intro hok hres
        rw [visitList] at hres
        by_cases hr : (visitT tasks f visited path d).1 = true
        · exact ih.1 visited path d (hok d (by simp)) hr
        · rw [if_neg (by simpa using hr)] at hres
          exact ihd _ (fun d2 hd2 => hok d2 (by simp [hd2])) hres
    constructor
    · intro visited path tid hok hres
      rw [visitT] at hres
      by_cases hpath : tid ∈ path
      · exact ⟨tid, pathOK_reach tasks path tid hok tid hpath⟩
      · rw [if_neg hpath] at hres
        by_cases hvis : tid ∈ visited
        · rw [if_pos hvis] at hres
          simp at hres
        · rw [if_neg hvis] at hres
          rcases hfind : findTask tasks tid with _ | t
          · rw [hfind] at hres
            simp at hres
          · rw [hfind] at hres
            obtain ⟨htmem, htid⟩ := findTask_some tasks tid t hfind
            refine hlist (tid :: visited) (tid :: path) t.deps ?_ hres
            intro d hd
            exact ⟨⟨t, htmem, htid, hd⟩, hok⟩
    · exact fun visited path ds hok hres =>
        (by
          induction ds generalizing visited with
          | nil => simp [visitList] at hres
          | cons d ds ihd =>
            rw [visitList] at hres
            by_cases hr : (visitT tasks (f + 1) visited path d).1 = true
            · exact (by
                rw [visitT] at hr
                by_cases hpath : d ∈ path
                · exact ⟨d, pathOK_reach tasks path d (hok d (by simp)) d hpath⟩
                · rw [if_neg hpath] at hr
                  by_cases hvis : d ∈ visited
                  · rw [if_pos hvis] at hr
                    simp at hr
                  · rw [if_neg hvis] at hr
                    rcases hfind : findTask tasks d with _ | t
                    · rw [hfind] at hr
                      simp at hr
                    · rw [hfind] at hr
                      obtain ⟨htmem, htid⟩ := findTask_some tasks d t hfind
                      refine hlist (d :: visited) (d :: path) t.deps ?_ hr
                      intro d2 hd2
                      exact ⟨⟨t, htmem, htid, hd2⟩, hok d (by simp)⟩)
            · rw [if_neg (by simpa using hr)] at hres
              exact ihd _ (fun d2 hd2 => hok d2 (by simp [hd2])) hres)

theorem checkCircular_sound (tasks : List PTask) (t : PTask)
    (h : checkCircular tasks t = true) : CycleExists tasks :=
  (visit_sound tasks (sizeBound tasks)).1 [] [] t.id trivial h

/-! ### Completeness of the DFS cycle check -/

/-- Every id the DFS can ever visit: task ids and dependency ids. -/
def idUniverse (tasks : List PTask) : List String :=
  taskIds tasks ++ tasks.flatMap (fun t => t.deps)

/-- Number of ids of the universe not yet marked visited: the decreasing
measure of the DFS. -/
def restCard (tasks : List PTask) (visited : List String) : Nat :=
  ((idUniverse tasks).toFinset \ visited.toFinset).card

/-- An id from which no dependency cycle is reachable. -/
def Safe (tasks : List PTask) (u : String) : Prop :=
  ¬ ∃ z, Relation.ReflTransGen (dependsOn tasks) u z ∧
    Relation.TransGen (dependsOn tasks) z z

theorem restCard_cons_lt (tasks : List PTask) (visited : List String)
    (tid : String) (hU : tid ∈ idUniverse tasks) (hv : ¬ tid ∈ visited) :
    restCard tasks (tid :: visited) < restCard tasks visited := by
  unfold restCard
  have h1 : (tid :: visited).toFinset = insert tid visited.toFinset := by simp
  rw [h1, Finset.sdiff_insert]
  exact Finset.card_erase_lt_of_mem (by simp [hU, hv])

theorem restCard_mono (tasks : List PTask) (v1 v2 : List String)
    (h : ∀ x ∈ v1, x ∈ v2) : restCard tasks v2 ≤ restCard tasks v1 := by
  apply Finset.card_le_card
  apply Finset.sdiff_subset_sdiff (le_refl _)
  intro x hx
  exact List.mem_toFinset.2 (h x (List.mem_toFinset.1 hx))

theorem safe_of_no_task (tasks : List PTask) (tid : String)
    (h : ∀ t ∈ tasks, t.id ≠ tid) : Safe tasks tid := by
  rintro ⟨z, hreach, hcyc⟩
  rcases hreach.cases_head with rfl | ⟨c, hstep, _⟩
  · rcases Relation.TransGen.head'_iff.1 hcyc with ⟨c, hstep, _⟩
    obtain ⟨t, ht, htid, _⟩ := hstep
    exact h t ht htid
  · obtain ⟨t, ht, htid, _⟩ := hstep
    exact h t ht htid

theorem task_unique (tasks : List PTask) (hnd : (taskIds tasks).Nodup)
    {t1 t2 : PTask} (h1 : t1 ∈ tasks) (h2 : t2 ∈ tasks)
    (h : t1.id = t2.id) : t1 = t2 :=
  List.inj_on_of_nodup_map (by simpa [taskIds] using hnd) h1 h2 h

theorem id_mem_universe (tasks : List PTask) {t : PTask} (ht : t ∈ tasks) :
    t.id ∈ idUniverse tasks := by
  simp only [idUniverse, taskIds, List.mem_append, List.mem_map]
  exact Or.inl ⟨t, ht, rfl⟩

theorem dep_mem_universe (tasks : List PTask) {t : PTask} (ht : t ∈ tasks)
    {d : String} (hd : d ∈ t.deps) : d ∈ idUniverse tasks := by
  simp only [idUniverse, List.mem_append, List.mem_flatMap]
  exact Or.inr ⟨t, ht, hd⟩

/-- Completeness invariant of the DFS: when a visit returns false, every id
it has marked visited and not still on the current path is safe, the visited
set only grows, stays inside the universe, and contains the visited node
(for a list visit, each explored dependency, nodes on the path being
reported as cycles instead). -/
theorem visit_complete (tasks : List PTask) (hnd : (taskIds tasks).Nodup) :
    ∀ fuel : Nat,
    (∀ visited path tid,
      restCard tasks visited + 1 ≤ fuel →
      tid ∈ idUniverse tasks →
      (∀ u ∈ visited, u ∈ idUniverse tasks) →
      (∀ u ∈ visited, ¬ u ∈ path → Safe tasks u) →
      (visitT tasks fuel visited path tid).1 = false →
      ((∀ u ∈ (visitT tasks fuel visited path tid).2, ¬ u ∈ path →
          Safe tasks u) ∧
        tid ∈ (visitT tasks fuel visited path tid).2 ∧
        (∀ u ∈ visited, u ∈ (visitT tasks fuel visited path tid).2) ∧
        (∀ u ∈ (visitT tasks fuel visited path tid).2,
          u ∈ idUniverse tasks))) ∧
    (∀ visited path ds,
      restCard tasks visited + 1 ≤ fuel →
      (∀ d ∈ ds, d ∈ idUniverse tasks) →
      (∀ u ∈ visited, u ∈ idUniverse tasks) →
      (∀ u ∈ visited, ¬ u ∈ path → Safe tasks u) →
      (visitList tasks fuel visited path ds).1 = false →
      ((∀ u ∈ (visitList tasks fuel visited path ds).2, ¬ u ∈ path →
          Safe tasks u) ∧
        (∀ d ∈ ds, d ∈ (visitList tasks fuel visited path ds).2 ∧
          ¬ d ∈ path) ∧
        (∀ u ∈ visited, u ∈ (visitList tasks fuel visited path ds).2) ∧
        (∀ u ∈ (visitList tasks fuel visited path ds).2,
          u ∈ idUniverse tasks))) := by
  intro fuel
  induction fuel with
  | zero =>
    constructor
    · intro visited path tid hfuel
      exact absurd hfuel (by omega)
    · intro visited path ds hfuel
      exact absurd hfuel (by omega)
  | succ f ih =>
    have hLT : ∀ visited path tid,
        restCard tasks visited + 1 ≤ f + 1 →
        tid ∈ idUniverse tasks →
        (∀ u ∈ visited, u ∈ idUniverse tasks) →
        (∀ u ∈ visited, ¬ u ∈ path → Safe tasks u) →
        (visitT tasks (f + 1) visited path tid).1 = false →
        ((∀ u ∈ (visitT tasks (f + 1) visited path tid).2, ¬ u ∈ path →
            Safe tasks u) ∧
          tid ∈ (visitT tasks (f + 1) visited path tid).2 ∧
          (∀ u ∈ visited, u ∈ (visitT tasks (f + 1) visited path tid).2) ∧
          (∀ u ∈ (visitT tasks (f + 1) visited path tid).2,
            u ∈ idUniverse tasks)) := by
      intro visited path tid hfuel htidU hvisU hsafe hres
      by_cases hpath : tid ∈ path
      · have hout : visitT tasks (f + 1) visited path tid = (true, visited) := by
          rw [visitT, if_pos hpath]
        rw [hout] at hres
        simp at hres
      · by_cases hvis : tid ∈ visited
        · have hout : visitT tasks (f + 1) visited path tid =
              (false, visited) := by
            rw [visitT, if_neg hpath, if_pos hvis]
          rw [hout]
          exact ⟨hsafe, hvis, fun u hu => hu, hvisU⟩
        · rcases hfind : findTask tasks tid with _ | t
          · have hout : visitT tasks (f + 1) visited path tid =
                (false, tid :: visited) := by
              rw [visitT, if_neg hpath, if_neg hvis, hfind]
            rw [hout]
            refine ⟨?_, List.mem_cons_self _ _,
              fun u hu => List.mem_cons_of_mem _ hu, ?_⟩
            · intro u hu hup
              rcases List.mem_cons.1 hu with rfl | hu
              · exact safe_of_no_task tasks u (findTask_none tasks u hfind)
              · exact hsafe u hu hup
            · intro u hu
              rcases List.mem_cons.1 hu with rfl | hu
              · exact htidU
              · exact hvisU u hu
          · obtain ⟨htmem, htid⟩ := findTask_some tasks tid t hfind
            have hout : visitT tasks (f + 1) visited path tid =
                visitList tasks f (tid :: visited) (tid :: path) t.deps := by
              rw [visitT, if_neg hpath, if_neg hvis, hfind]
            have hlt := restCard_cons_lt tasks visited tid htidU hvis
            have hfuel2 : restCard tasks (tid :: visited) + 1 ≤ f := by omega
            have hds : ∀ d ∈ t.deps, d ∈ idUniverse tasks :=
              fun d hd => dep_mem_universe tasks htmem hd
            have hvisU2 : ∀ u ∈ tid :: visited, u ∈ idUniverse tasks := by
              intro u hu
              rcases List.mem_cons.1 hu with rfl | hu
              · exact htidU
              · exact hvisU u hu
            have hsafe2 : ∀ u ∈ tid :: visited, ¬ u ∈ tid :: path →
                Safe tasks u := by
              intro u hu hup
              rcases List.mem_cons.1 hu with rfl | hu
              · exact absurd (List.mem_cons_self _ _) hup
              · exact hsafe u hu (fun hp => hup (List.mem_cons_of_mem _ hp))
            rw [hout] at hres
            obtain ⟨A1, B1, C1, D1⟩ := ih.2 (tid :: visited) (tid :: path)
              t.deps hfuel2 hds hvisU2 hsafe2 hres
            rw [hout]
            refine ⟨?_, C1 tid (List.mem_cons_self _ _),
              fun u hu => C1 u (List.mem_cons_of_mem _ hu), D1⟩
            intro u hu hup
            by_cases hutid : u = tid
            · subst hutid
              have hsafec : ∀ c, dependsOn tasks u c → Safe tasks c := by
                intro c hstep
                obtain ⟨t2, ht2, htid2, hc⟩ := hstep
                have heq : t2 = t :=
                  task_unique tasks hnd ht2 htmem (htid2.trans htid.symm)
                subst heq
                obtain ⟨hcmem, hcpath⟩ := B1 c hc
                exact A1 c hcmem hcpath
              rintro ⟨z, hreach, hcyc⟩
              rcases hreach.cases_head with rfl | ⟨c, hstep, hrest⟩
              · rcases Relation.TransGen.head'_iff.1 hcyc with ⟨c, hstep, hrest⟩
                exact hsafec c hstep ⟨_, hrest, hcyc⟩
              · exact hsafec c hstep ⟨z, hrest, hcyc⟩
            · exact A1 u hu
                (fun hp => (List.mem_cons.1 hp).elim hutid hup)
    refine ⟨hLT, ?_⟩
    intro visited path ds
    induction ds generalizing visited with
    | nil =>
      intro _ _ hvisU hsafe _
      rw [visitList]
      exact ⟨hsafe, fun d hd => absurd hd (by simp), fun u hu => hu, hvisU⟩
    | cons d ds ihd =>
      intro hfuel hds hvisU hsafe hres
      by_cases hr1 : (visitT tasks (f + 1) visited path d).1 = true
      · rw [visitList, if_pos hr1] at hres
        simp at hres
      · have hr1f : (visitT tasks (f + 1) visited path d).1 = false := by
          simpa using hr1
        obtain ⟨A1, B1, C1, D1⟩ :=
          hLT visited path d hfuel (hds d (by simp)) hvisU hsafe hr1f
        have hdpath : ¬ d ∈ path := by
          intro hp
          rw [visitT, if_pos hp] at hr1f
          simp at hr1f
        have hmono := restCard_mono tasks visited
          (visitT tasks (f + 1) visited path d).2 C1
        have hfuel2 :
            restCard tasks (visitT tasks (f + 1) visited path d).2 + 1 ≤
              f + 1 := by omega
        have hout : visitList tasks (f + 1) visited path (d :: ds) =
            visitList tasks (f + 1) (visitT tasks (f + 1) visited path d).2
              path ds := by
          rw [visitList, if_neg hr1]
        rw [hout] at hres
        obtain ⟨A2, B2, C2, D2⟩ :=
          ihd (visitT tasks (f + 1) visited path d).2 hfuel2
            (fun d2 hd2 => hds d2 (by simp [hd2])) D1 A1 hres
        rw [hout]
        refine ⟨A2, ?_, fun u hu => C2 u (C1 u hu), D2⟩
        intro d2 hd2
        rcases List.mem_cons.1 hd2 with rfl | hd2
        · exact ⟨C2 d2 B1, hdpath⟩
        · exact B2 d2 hd2

/-- The chosen fuel dominates the measure of a fresh visited set. -/
theorem sizeBound_ge (tasks : List PTask) :
    restCard tasks [] + 1 ≤ sizeBound tasks := by
  have h1 : restCard tasks [] ≤ (idUniverse tasks).length := by
    unfold restCard
    simp only [List.toFinset_nil, Finset.sdiff_empty]
    exact List.toFinset_card_le _
  have h2 : (idUniverse tasks).length =
      tasks.length + (tasks.map (fun t => t.deps.length)).sum := by
    simp [idUniverse, taskIds, List.length_flatMap, Function.comp_def]
  unfold sizeBound
  omega

/-- Completeness of _check_circular_dependencies: on a plan with unique task
ids, a task from which a dependency cycle is reachable is reported. -/
theorem checkCircular_complete (tasks : List PTask)
    (hnd : (taskIds tasks).Nodup) (t : PTask) (ht : t ∈ tasks)
    (hx : ∃ z, Relation.ReflTransGen (dependsOn tasks) t.id z ∧
      Relation.TransGen (dependsOn tasks) z z) :
    checkCircular tasks t = true := by
  by_contra hres
  have hres2 : (visitT tasks (sizeBound tasks) [] [] t.id).1 = false := by
    simpa [checkCircular] using hres
  obtain ⟨A, B, _, _⟩ := (visit_complete tasks hnd (sizeBound tasks)).1 [] []
    t.id (sizeBound_ge tasks) (id_mem_universe tasks ht) (by simp) (by simp)
    hres2
  exact A t.id B (by simp) hx

/-- Under a passing registry gate the validation of a task with resolving
dependencies reduces to its cycle check. -/
theorem validateTask_eq (tasks : List PTask) (t : PTask)
    (hmode : agentModeOk t = true)
    (hdeps : ∀ d ∈ t.deps, d ∈ taskIds tasks) :
    validateTask tasks t = (if checkCircular tasks t then
      .error ("Circular dependency detected involving task " ++ t.id)
    else .ok ()) := by
  rcases hcfg : getAgentConfig t.agentType with e | modes
  · simp [agentModeOk, hcfg] at hmode
  · have hmem : t.mode ∈ modes.map Prod.fst := by
      simpa [agentModeOk, hcfg] using hmode
    have hfind : t.deps.find? (fun d => decide (¬ d ∈ taskIds tasks)) =
        none := by
      apply List.find?_eq_none.2
      intro d hd
      simp only [decide_eq_true_eq, not_not]
      exact hdeps d hd
    simp only [validateTask, hcfg]
    rw [if_neg (not_not_intro hmem), hfind]

/-- Under a passing registry gate a dangling dependency yields the named
dependency-not-found error. -/
theorem validateTask_dangling (tasks : List PTask) (t : PTask)
    (hmode : agentModeOk t = true) (dep : String)
    (hfind : t.deps.find? (fun d => decide (¬ d ∈ taskIds tasks)) =
      some dep) :
    validateTask tasks t = .error ("Task " ++ t.id ++ ": Dependency \x27" ++
      dep ++ "\x27 not found in task list") := by
  rcases hcfg : getAgentConfig t.agentType with e | modes
  · simp [agentModeOk, hcfg] at hmode
  · have hmem : t.mode ∈ modes.map Prod.fst := by
      simpa [agentModeOk, hcfg] using hmode
    simp only [validateTask, hcfg]
    rw [if_neg (not_not_intro hmem), hfind]

/-- Tasks that validate cleanly are skipped by the plan-level loop. -/
theorem validateTasks_skip (tasks : List PTask) (pre rest : List PTask)
    (hok : ∀ u ∈ pre, validateTask tasks u = .ok ()) :
    validateTasks tasks (pre ++ rest) = validateTasks tasks rest := by
  induction pre with
  | nil => rfl
  | cons u us ih =>
    rw [List.cons_append, validateTasks, hok u (by simp)]
    exact ih (fun v hv => hok v (by simp [hv]))

/-- On a sublist whose tasks all pass the registry gate and resolve their
dependencies, plan validation either passes with every cycle check clean or
stops at some task with the circular-dependency error naming it. -/
theorem validateTasks_cases (tasks : List PTask) (ts : List PTask)
    (hmode : ∀ t ∈ ts, agentModeOk t = true)
    (hdeps : ∀ t ∈ ts, ∀ d ∈ t.deps, d ∈ taskIds tasks) :
    (validateTasks tasks ts = .ok () ∧
      ∀ t ∈ ts, checkCircular tasks t = false) ∨
    (∃ t ∈ ts, checkCircular tasks t = true ∧ validateTasks tasks ts =
      .error ("Circular dependency detected involving task " ++ t.id)) := by
  induction ts with
  | nil => exact Or.inl ⟨rfl, by simp⟩
  | cons t ts ih =>
    have hvt := validateTask_eq tasks t (hmode t (by simp))
      (hdeps t (by simp))
    by_cases hcc : checkCircular tasks t = true
    · rw [if_pos hcc] at hvt
      refine Or.inr ⟨t, by simp, hcc, ?_⟩
      rw [validateTasks, hvt]
    · rw [if_neg hcc] at hvt
      rcases ih (fun u hu => hmode u (by simp [hu]))
          (fun u hu => hdeps u (by simp [hu])) with ⟨hok, hall⟩ |
        ⟨u, hu, hucc, he⟩
      · refine Or.inl ⟨?_, ?_⟩
        · rw [validateTasks, hvt]
          exact hok
        · intro u hu
          rcases List.mem_cons.1 hu with rfl | hu
          · simpa using hcc
          · exact hall u hu
      · refine Or.inr ⟨u, by simp [hu], hucc, ?_⟩
        rw [validateTasks, hvt]
        exact he

/-- C7: on a plan whose tasks all pass the registry gate, validation fails
with the dependency-not-found error naming the offending task and the
missing dependency id whenever some task declares a dependency on an id
naming no task of the (otherwise acyclic) plan; it fails with the
circular-dependency error naming an involved task whenever the (resolving,
uniquely-identified) dependency relation contains a cycle; and a plan in
which every dependency resolves and the relation is acyclic passes both
checks. -/
theorem plan_validation (tasks : List PTask)
    (hmode : ∀ t ∈ tasks, agentModeOk t = true) :
    (∀ pre t post dep, tasks = pre ++ t :: post →
      ¬ CycleExists tasks →
      (∀ u ∈ pre, ∀ d ∈ u.deps, d ∈ taskIds tasks) →
      t.deps.find? (fun d => decide (¬ d ∈ taskIds tasks)) = some dep →
      validatePlan tasks = .error ("Task " ++ t.id ++ ": Dependency \x27" ++
        dep ++ "\x27 not found in task list")) ∧
    ((taskIds tasks).Nodup →
      (∀ t ∈ tasks, ∀ d ∈ t.deps, d ∈ taskIds tasks) →
      CycleExists tasks →
      ∃ t ∈ tasks, validatePlan tasks =
        .error ("Circular dependency detected involving task " ++ t.id)) ∧
    ((∀ t ∈ tasks, ∀ d ∈ t.deps, d ∈ taskIds tasks) →
      ¬ CycleExists tasks →
      validatePlan tasks = .ok ()) := by
  refine ⟨?_, ?_, ?_⟩
  · intro pre t post dep heq hnc hpre hfind
    have hccf : ∀ u, checkCircular tasks u = false := by
      intro u
      by_contra hcc
      exact hnc (checkCircular_sound tasks u (by simpa using hcc))
    have hok : ∀ u ∈ pre, validateTask tasks u = .ok () := by
      intro u hu
      have hmem : u ∈ tasks := by rw [heq]; exact List.mem_append_left _ hu
      rw [validateTask_eq tasks u (hmode u hmem) (hpre u hu)]
      simp [hccf u]
    have hmemt : t ∈ tasks := by rw [heq]; simp
    have h1 : validatePlan tasks = validateTasks tasks (pre ++ t :: post) :=
      congrArg (validateTasks tasks) heq
    rw [h1, validateTasks_skip tasks pre (t :: post) hok, validateTasks,
      validateTask_dangling tasks t (hmode t hmemt) dep hfind]
  · intro hnd hwf hcyc
    obtain ⟨x, hx⟩ := hcyc
    rcases Relation.TransGen.head'_iff.1 hx with ⟨c, hstep, _⟩
    obtain ⟨t, ht, htid, _⟩ := hstep
    have hcct : checkCircular tasks t = true :=
      checkCircular_complete tasks hnd t ht
        ⟨x, by rw [htid], hx⟩
    rcases validateTasks_cases tasks tasks hmode hwf with ⟨_, hall⟩ |
      ⟨u, hu, _, he⟩
    · exact absurd hcct (by simp [hall t ht])
    · exact ⟨u, hu, he⟩
  · intro hwf hnc
    rcases validateTasks_cases tasks tasks hmode hwf with ⟨hok, _⟩ |
      ⟨u, _, hucc, _⟩
    · exact hok
    · exact absurd (checkCircular_sound tasks u hucc) hnc

/-- A well-formed two-task plan for the parser checks. -/
def okTasks7 : List PTask :=
  [⟨"A", "gmail", "read", [], [], []⟩,
   ⟨"B", "gmail", "send", ["A"], [], []⟩]

/-- A two-task dependency cycle for the parser checks. -/
def cycTasks7 : List PTask :=
  [⟨"A", "gmail", "read", ["B"], [], []⟩,
   ⟨"B", "gmail", "read", ["A"], [], []⟩]

/-- A plan whose second task names a dependency absent from the plan. -/
def dangTasks7 : List PTask :=
  [⟨"A", "gmail", "read", [], [], []⟩,
   ⟨"B", "gmail", "send", ["Z"], [], []⟩]

/-- Witness for C7 at three concrete plans: a dangling dependency, a
two-task cycle, and a clean plan. -/
theorem plan_validation_witness :
    validatePlan dangTasks7 = .error ("Task " ++ "B" ++ ": Dependency \x27" ++
      "Z" ++ "\x27 not found in task list") ∧
    (∃ t ∈ cycTasks7, validatePlan cycTasks7 =
      .error ("Circular dependency detected involving task " ++ t.id)) ∧
    validatePlan okTasks7 = .ok () := by
  have hnc : ¬ CycleExists dangTasks7 :=
    noCycle_of_rank dangTasks7 (fun s => if s = "B" then 1 else 0) (by decide)
  have hs1 : dependsOn cycTasks7 "A" "B" :=
    ⟨⟨"A", "gmail", "read", ["B"], [], []⟩, by simp [cycTasks7], rfl, by simp⟩
  have hs2 : dependsOn cycTasks7 "B" "A" :=
    ⟨⟨"B", "gmail", "read", ["A"], [], []⟩, by simp [cycTasks7], rfl, by simp⟩
  have hcyc : CycleExists cycTasks7 :=
    ⟨"A", Relation.TransGen.head hs1 (Relation.TransGen.single hs2)⟩
  have hnc2 : ¬ CycleExists okTasks7 :=
    noCycle_of_rank okTasks7 (fun s => if s = "B" then 1 else 0) (by decide)
  refine ⟨?_, ?_, ?_⟩
  · exact (plan_validation dangTasks7 (by decide)).1
      [⟨"A", "gmail", "read", [], [], []⟩]
      ⟨"B", "gmail", "send", ["Z"], [], []⟩ [] "Z" rfl hnc (by decide)
      (by decide)
  · exact (plan_validation cycTasks7 (by decide)).2.1 (by decide) (by decide)
      hcyc
  · exact (plan_validation okTasks7 (by decide)).2.2 (by decide) hnc2

end Vienna
